import Mathlib

/-!
Verification development for the gsElasticity module: a shallow embedding of

* the mixed Taylor-Hood nonlinear elasticity element visitor
  (`src/src/gsVisitorNonLinElasticityMixedTH.h`), and
* the Newton iteration driver (`src/gsElasticityMixedTHNewton.h`).

Modelling conventions.

* The C++ scalar type `T` (a floating point type in practice) is modelled by
  the exact rationals `ℚ`; the external math library routine `math::log` is an
  uninterpreted function parameter `mylog : ℚ → ℚ`.
* `gsSparseMatrix` / dense vectors are modelled as total functions
  `ℕ → ℕ → ℚ` / `ℕ → ℚ`; `coeffRef(i,j) += v` is an accumulation at `(i,j)`.
* The degree-of-freedom mappers (`gsDofMapper`, an external collaborator) are
  modelled by their observable behaviour inside `localToGlobal`: a resolved
  global-index table `I c a` (the `ci_actives` arrays after
  `mappers[c].localToGlobal`) and a free-index predicate `free c ii`
  (`mappers[c].is_free_index(ii)`).
* Geometry/basis evaluations (`geoEval.measure`, `transformGradients`,
  jacobians, basis values) are external inputs and enter the model as data of
  a quadrature point record.
* Imperative loops that only perform `+=` accumulations are embedded as the
  list of elementary writes the loop issues, in the order the loop issues
  them, applied by a left fold.
-/

namespace Gismo

/-! ## Accumulation machinery

A write `(i, v)` into a vector means `vec[i] += v`; a write `(i, j, v)` into a
matrix means `mat.coeffRef(i,j) += v`.  A loop body is represented by the list
of writes it issues and executed by a left fold. -/

/-- One accumulation `v[w.1] += w.2` into a dense vector. -/
def addAtV (v : ℕ → ℚ) (w : ℕ × ℚ) : ℕ → ℚ :=
  fun p => if p = w.1 then v p + w.2 else v p

/-- One accumulation `s.coeffRef(w.1, w.2.1) += w.2.2` into a sparse matrix. -/
def addAtM (s : ℕ → ℕ → ℚ) (w : ℕ × ℕ × ℚ) : ℕ → ℕ → ℚ :=
  fun p q => if p = w.1 ∧ q = w.2.1 then s p q + w.2.2 else s p q

/-- Execute a list of vector writes in order. -/
def applyV (ws : List (ℕ × ℚ)) (v : ℕ → ℚ) : ℕ → ℚ := ws.foldl addAtV v

/-- Execute a list of matrix writes in order. -/
def applyM (ws : List (ℕ × ℕ × ℚ)) (s : ℕ → ℕ → ℚ) : ℕ → ℕ → ℚ := ws.foldl addAtM s

/-- Total amount a list of vector writes adds at position `p`. -/
def wsumV (ws : List (ℕ × ℚ)) (p : ℕ) : ℚ :=
  (ws.map (fun w => if w.1 = p then w.2 else 0)).sum

/-- Total amount a list of matrix writes adds at position `(p, q)`. -/
def wsumM (ws : List (ℕ × ℕ × ℚ)) (p q : ℕ) : ℚ :=
  (ws.map (fun w => if w.1 = p ∧ w.2.1 = q then w.2.2 else 0)).sum

theorem applyV_apply (ws : List (ℕ × ℚ)) (v : ℕ → ℚ) (p : ℕ) :
    applyV ws v p = v p + wsumV ws p := by
  induction ws generalizing v with
  | nil => simp [applyV, wsumV]
  | cons w t ih =>
      simp only [applyV, List.foldl_cons] at *
      rw [ih]
      simp only [wsumV, List.map_cons, List.sum_cons, addAtV]
      by_cases h : p = w.1
      · subst h; simp [eq_comm]; ring
      · have h₂ : ¬ (w.1 = p) := fun hc => h hc.symm
        simp [h, h₂]

theorem applyM_apply (ws : List (ℕ × ℕ × ℚ)) (s : ℕ → ℕ → ℚ) (p q : ℕ) :
    applyM ws s p q = s p q + wsumM ws p q := by
  induction ws generalizing s with
  | nil => simp [applyM, wsumM]
  | cons w t ih =>
      simp only [applyM, List.foldl_cons] at *
      rw [ih]
      simp only [wsumM, List.map_cons, List.sum_cons, addAtM]
      by_cases h : p = w.1 ∧ q = w.2.1
      · obtain ⟨h1, h2⟩ := h; subst h1; subst h2; simp [eq_comm]; ring
      · have h₂ : ¬ (w.1 = p ∧ w.2.1 = q) := fun hc => h ⟨hc.1.symm, hc.2.symm⟩
        simp [h, h₂]

theorem wsumV_nil (p : ℕ) : wsumV [] p = 0 := rfl

theorem wsumM_nil (p q : ℕ) : wsumM [] p q = 0 := rfl

theorem wsumV_append (a b : List (ℕ × ℚ)) (p : ℕ) :
    wsumV (a ++ b) p = wsumV a p + wsumV b p := by
  simp [wsumV]

theorem wsumM_append (a b : List (ℕ × ℕ × ℚ)) (p q : ℕ) :
    wsumM (a ++ b) p q = wsumM a p q + wsumM b p q := by
  simp [wsumM]

theorem wsumV_cons (w : ℕ × ℚ) (t : List (ℕ × ℚ)) (p : ℕ) :
    wsumV (w :: t) p = (if w.1 = p then w.2 else 0) + wsumV t p := by
  simp [wsumV]

theorem wsumM_cons (w : ℕ × ℕ × ℚ) (t : List (ℕ × ℕ × ℚ)) (p q : ℕ) :
    wsumM (w :: t) p q = (if w.1 = p ∧ w.2.1 = q then w.2.2 else 0) + wsumM t p q := by
  simp [wsumM]

theorem wsumV_ite (c : Prop) [Decidable c] (a b : List (ℕ × ℚ)) (p : ℕ) :
    wsumV (if c then a else b) p = if c then wsumV a p else wsumV b p := by
  split <;> rfl

theorem wsumM_ite (c : Prop) [Decidable c] (a b : List (ℕ × ℕ × ℚ)) (p q : ℕ) :
    wsumM (if c then a else b) p q = if c then wsumM a p q else wsumM b p q := by
  split <;> rfl

theorem wsumV_flatMap (l : List ℕ) (f : ℕ → List (ℕ × ℚ)) (p : ℕ) :
    wsumV (l.flatMap f) p = (l.map (fun x => wsumV (f x) p)).sum := by
  induction l with
  | nil => simp [wsumV]
  | cons a t ih => simp [List.flatMap_cons, wsumV_append, ih]

theorem wsumM_flatMap (l : List ℕ) (f : ℕ → List (ℕ × ℕ × ℚ)) (p q : ℕ) :
    wsumM (l.flatMap f) p q = (l.map (fun x => wsumM (f x) p q)).sum := by
  induction l with
  | nil => simp [wsumM]
  | cons a t ih => simp [List.flatMap_cons, wsumM_append, ih]

theorem wsumV_eq_zero (ws : List (ℕ × ℚ)) (p : ℕ) (h : ∀ w ∈ ws, w.1 ≠ p) :
    wsumV ws p = 0 := by
  apply List.sum_eq_zero
  intro x hx
  simp only [List.mem_map] at hx
  obtain ⟨w, hw, rfl⟩ := hx
  simp [h w hw]

theorem wsumM_eq_zero (ws : List (ℕ × ℕ × ℚ)) (p q : ℕ)
    (h : ∀ w ∈ ws, ¬(w.1 = p ∧ w.2.1 = q)) : wsumM ws p q = 0 := by
  apply List.sum_eq_zero
  intro x hx
  simp only [List.mem_map] at hx
  obtain ⟨w, hw, rfl⟩ := hx
  simp [h w hw]

/-! ## List-sum bridges -/

theorem sum_map_range (f : ℕ → ℚ) (n : ℕ) :
    ((List.range n).map f).sum = ∑ i ∈ Finset.range n, f i := by
  induction n with
  | zero => simp
  | succ m ih =>
      rw [List.range_succ, Finset.sum_range_succ, List.map_append, List.sum_append, ih]
      simp

theorem sum_map_range' (f : ℕ → ℚ) (s n : ℕ) (hs : s ≤ n) :
    ((List.range' s (n - s)).map f).sum
      = ∑ i ∈ Finset.range n, if s ≤ i then f i else 0 := by
  induction n with
  | zero =>
      have : s = 0 := Nat.le_zero.mp hs
      subst this; simp
  | succ m ih =>
      rcases Nat.lt_or_ge s (m+1) with hlt | hge
      · have hs' : s ≤ m := Nat.lt_succ_iff.mp hlt
        have hm : m + 1 - s = (m - s) + 1 := by omega
        rw [hm, List.range'_concat, List.map_append, List.sum_append,
          Finset.sum_range_succ, ih hs']
        have : s + (m - s) = m := by omega
        simp [this, hs']
      · have hsm : s = m + 1 := le_antisymm hs hge
        subst hsm
        simp only [Nat.sub_self, List.range', List.map_nil, List.sum_nil]
        rw [eq_comm]
        apply Finset.sum_eq_zero
        intro i hi
        have : ¬ (m + 1 ≤ i) := by
          have := Finset.mem_range.mp hi; omega
        simp [this]

/-- Index decoding for the flattened displacement numbering `c * n + a` with
`a < n`: the component and the basis index are recovered uniquely. -/
theorem flat_index_inj (n a b i j : ℕ) (hi : i < n) (hj : j < n)
    (h : a * n + i = b * n + j) : a = b ∧ i = j := by
  have hn : 0 < n := Nat.lt_of_le_of_lt (Nat.zero_le i) hi
  have hmod : i = j := by
    have := congrArg (· % n) h
    simpa [Nat.mul_comm, Nat.mul_add_mod, Nat.mod_eq_of_lt hi, Nat.mod_eq_of_lt hj] using this
  have ha : (a * n + i) / n = a := by
    rw [Nat.mul_comm, Nat.mul_add_div hn, Nat.div_eq_of_lt hi, Nat.add_zero]
  have hb : (b * n + j) / n = b := by
    rw [Nat.mul_comm, Nat.mul_add_div hn, Nat.div_eq_of_lt hj, Nat.add_zero]
  have hdiv : a = b := by rw [← ha, ← hb, h]
  exact ⟨hdiv, hmod⟩

/-! ## The scatter step `gsVisitorNonLinElasticityMixedTH::localToGlobal`

Inputs of one `localToGlobal` call, after the external DoF mappers have
resolved the active local indices (`mappers[c].localToGlobal`, code lines
217-222).  Components `0 … d-1` are the displacement components, component
`d` (`m_dim` in the code) is the pressure field. -/
structure ScatterIn where
  /-- spatial dimension `m_dim` -/
  d : ℕ
  /-- number of active displacement basis functions `numActive` -/
  n : ℕ
  /-- number of active pressure basis functions `numActive_p` -/
  np : ℕ
  /-- resolved global index `ci_actives[c](a)` of local active index `a` of
  component `c` -/
  I : ℕ → ℕ → ℕ
  /-- the free/eliminated classification `mappers[c].is_free_index(ii)` of a
  global index `ii` -/
  free : ℕ → ℕ → Bool
  /-- local tangent block `localMatK`, indexed by `c * n + a` -/
  K : ℕ → ℕ → ℚ
  /-- local coupling block `localMatB` (row: pressure index, column: `c*n+a`) -/
  B : ℕ → ℕ → ℚ
  /-- local pressure-pressure block `localMatC` -/
  C : ℕ → ℕ → ℚ
  /-- local displacement residual `localRhs_u` -/
  Ru : ℕ → ℚ
  /-- local pressure residual `localRhs_p` -/
  Rp : ℕ → ℚ

/-- Matrix writes of the displacement loops of `localToGlobal` (code lines
224-270): the `localMatK` scatter over `aj ≥ ai` with the explicit mirror
write for `aj > ai`, followed (inside the same `(ci, ai)` iteration) by the
`localMatB` scatter, which always writes the mirrored pair `(ii,jj)`,
`(jj,ii)`. -/
def matWritesKB (V : ScatterIn) : List (ℕ × ℕ × ℚ) :=
  (List.range V.d).flatMap fun ci =>
    (List.range V.n).flatMap fun ai =>
      if V.free ci (V.I ci ai) then
        ((List.range' ai (V.n - ai)).flatMap fun aj =>
          (List.range V.d).flatMap fun cj =>
            if V.free cj (V.I cj aj) then
              (V.I ci ai, V.I cj aj, V.K (ci * V.n + ai) (cj * V.n + aj)) ::
              (if ai < aj then
                [(V.I cj aj, V.I ci ai, V.K (ci * V.n + ai) (cj * V.n + aj))]
              else [])
            else [])
        ++ ((List.range V.np).flatMap fun aj =>
            if V.free V.d (V.I V.d aj) then
              [(V.I ci ai, V.I V.d aj, V.B aj (ci * V.n + ai)),
               (V.I V.d aj, V.I ci ai, V.B aj (ci * V.n + ai))]
            else [])
      else []

/-- Matrix writes of the pressure-pressure loop of `localToGlobal` (code
lines 272-299): the `localMatC` scatter over `aj ≥ ai` with the explicit
mirror write for `aj > ai`. -/
def matWritesC (V : ScatterIn) : List (ℕ × ℕ × ℚ) :=
  (List.range V.np).flatMap fun ai =>
    if V.free V.d (V.I V.d ai) then
      (List.range' ai (V.np - ai)).flatMap fun aj =>
        if V.free V.d (V.I V.d aj) then
          (V.I V.d ai, V.I V.d aj, V.C ai aj) ::
          (if ai < aj then [(V.I V.d aj, V.I V.d ai, V.C ai aj)] else [])
        else []
    else []

/-- Right-hand-side writes of `localToGlobal`: `rhsMatrix.row(ii) +=
localRhs_u.row(gi)` (line 233) for free displacement DoFs and
`rhsMatrix.row(ii) += localRhs_p.row(gi)` (line 281) for free pressure
DoFs. -/
def rhsWritesTH (V : ScatterIn) : List (ℕ × ℚ) :=
  ((List.range V.d).flatMap fun ci =>
    (List.range V.n).flatMap fun ai =>
      if V.free ci (V.I ci ai) then [(V.I ci ai, V.Ru (ci * V.n + ai))] else [])
  ++ ((List.range V.np).flatMap fun ai =>
      if V.free V.d (V.I V.d ai) then [(V.I V.d ai, V.Rp ai)] else [])

/-- Effect of `localToGlobal` on the global sparse matrix `sysMatrix`: all
accumulations issued by the loops, in program order.  (The interleaved
right-hand-side accumulations target the separate `rhsMatrix` object and are
modelled by `localToGlobalRhs`.) -/
def localToGlobalMat (V : ScatterIn) (sys : ℕ → ℕ → ℚ) : ℕ → ℕ → ℚ :=
  applyM (matWritesKB V ++ matWritesC V) sys

/-- Effect of `localToGlobal` on the global right-hand side `rhsMatrix`. -/
def localToGlobalRhs (V : ScatterIn) (rhs : ℕ → ℚ) : ℕ → ℚ :=
  applyV (rhsWritesTH V) rhs

/-! ## Summed form of the scatter -/

/-- Contribution of a single accumulation of value `x` at position `(u, v)`
to the matrix entry `(p, q)`. -/
def ind (u v p q : ℕ) (x : ℚ) : ℚ := if u = p ∧ v = q then x else 0

theorem wsumM_singleton (w : ℕ × ℕ × ℚ) (p q : ℕ) :
    wsumM [w] p q = ind w.1 w.2.1 p q w.2.2 := by
  simp [wsumM, ind]

theorem wsumV_singleton (w : ℕ × ℚ) (p : ℕ) :
    wsumV [w] p = if w.1 = p then w.2 else 0 := by
  simp [wsumV]

theorem ind_swap (u v p q : ℕ) (x : ℚ) : ind u v q p x = ind v u p q x := by
  simp [ind, and_comm]

/-- Net contribution of the `(ci, ai, aj, cj)` iteration of the `localMatK`
scatter loop to the global entry `(p, q)`. -/
def kEntry (V : ScatterIn) (p q ci ai cj aj : ℕ) : ℚ :=
  if V.free ci (V.I ci ai) = true ∧ ai ≤ aj ∧ V.free cj (V.I cj aj) = true then
    ind (V.I ci ai) (V.I cj aj) p q (V.K (ci * V.n + ai) (cj * V.n + aj))
    + (if ai < aj then
        ind (V.I cj aj) (V.I ci ai) p q (V.K (ci * V.n + ai) (cj * V.n + aj))
      else 0)
  else 0

/-- Net contribution of the `(ci, ai, aj)` iteration of the `localMatB`
scatter loop to the global entry `(p, q)`. -/
def bEntry (V : ScatterIn) (p q ci ai aj : ℕ) : ℚ :=
  if V.free ci (V.I ci ai) = true ∧ V.free V.d (V.I V.d aj) = true then
    ind (V.I ci ai) (V.I V.d aj) p q (V.B aj (ci * V.n + ai))
    + ind (V.I V.d aj) (V.I ci ai) p q (V.B aj (ci * V.n + ai))
  else 0

/-- Net contribution of the `(ai, aj)` iteration of the `localMatC` scatter
loop to the global entry `(p, q)`. -/
def cEntry (V : ScatterIn) (p q ai aj : ℕ) : ℚ :=
  if V.free V.d (V.I V.d ai) = true ∧ ai ≤ aj ∧ V.free V.d (V.I V.d aj) = true then
    ind (V.I V.d ai) (V.I V.d aj) p q (V.C ai aj)
    + (if ai < aj then ind (V.I V.d aj) (V.I V.d ai) p q (V.C ai aj) else 0)
  else 0

theorem wsumM_matWritesC (V : ScatterIn) (p q : ℕ) :
    wsumM (matWritesC V) p q
      = ∑ ai ∈ Finset.range V.np, ∑ aj ∈ Finset.range V.np, cEntry V p q ai aj := by
  rw [matWritesC, wsumM_flatMap, sum_map_range]
  apply Finset.sum_congr rfl
  intro ai hai
  have hain : ai ≤ V.np := Nat.le_of_lt (Finset.mem_range.mp hai)
  rw [wsumM_ite]
  by_cases hfree : V.free V.d (V.I V.d ai) = true
  · rw [if_pos hfree, wsumM_flatMap, sum_map_range' _ ai V.np hain]
    apply Finset.sum_congr rfl
    intro aj _
    by_cases hle : ai ≤ aj
    · rw [if_pos hle, wsumM_ite]
      by_cases hfree2 : V.free V.d (V.I V.d aj) = true
      · by_cases hlt : ai < aj
        · simp [hfree2, hlt, wsumM_cons, wsumM_singleton, wsumM_nil, wsumM_ite,
            cEntry, ind, hfree, hle]
        · simp [hfree2, hlt, wsumM_cons, wsumM_nil, wsumM_ite, cEntry, ind,
            hfree, hle]
      · simp [hfree2, wsumM_nil, cEntry]
    · rw [if_neg hle, cEntry, if_neg (by intro hc; exact hle hc.2.1)]
  · rw [if_neg hfree, wsumM_nil, eq_comm]
    apply Finset.sum_eq_zero
    intro aj _
    rw [cEntry, if_neg (by intro hc; exact hfree hc.1)]

theorem wsumM_matWritesKB (V : ScatterIn) (p q : ℕ) :
    wsumM (matWritesKB V) p q
      = ∑ ci ∈ Finset.range V.d, ∑ ai ∈ Finset.range V.n,
          ((∑ aj ∈ Finset.range V.n, ∑ cj ∈ Finset.range V.d,
              kEntry V p q ci ai cj aj)
            + ∑ aj ∈ Finset.range V.np, bEntry V p q ci ai aj) := by
  rw [matWritesKB, wsumM_flatMap, sum_map_range]
  apply Finset.sum_congr rfl
  intro ci _
  rw [wsumM_flatMap, sum_map_range]
  apply Finset.sum_congr rfl
  intro ai hai
  have hain : ai ≤ V.n := Nat.le_of_lt (Finset.mem_range.mp hai)
  rw [wsumM_ite]
  by_cases hfree : V.free ci (V.I ci ai) = true
  · rw [if_pos hfree, wsumM_append]
    congr 1
    · rw [wsumM_flatMap, sum_map_range' _ ai V.n hain]
      apply Finset.sum_congr rfl
      intro aj _
      by_cases hle : ai ≤ aj
      · rw [if_pos hle, wsumM_flatMap, sum_map_range]
        apply Finset.sum_congr rfl
        intro cj _
        by_cases hfree2 : V.free cj (V.I cj aj) = true
        · by_cases hlt : ai < aj
          · simp [hfree2, hlt, wsumM_cons, wsumM_singleton, wsumM_nil, wsumM_ite,
              kEntry, ind, hfree, hle]
          · simp [hfree2, hlt, wsumM_cons, wsumM_nil, wsumM_ite, kEntry, ind,
              hfree, hle]
        · simp [hfree2, wsumM_nil, kEntry]
      · rw [if_neg hle, eq_comm]
        apply Finset.sum_eq_zero
        intro cj _
        rw [kEntry, if_neg (by intro hc; exact hle hc.2.1)]
    · rw [wsumM_flatMap, sum_map_range]
      apply Finset.sum_congr rfl
      intro aj _
      rw [wsumM_ite]
      by_cases hfree2 : V.free V.d (V.I V.d aj) = true
      · simp [hfree2, bEntry, wsumM_cons, wsumM_singleton, wsumM_nil, ind, hfree]
      · simp [hfree2, bEntry, wsumM_nil]
  · rw [if_neg hfree, wsumM_nil, eq_comm]
    have hk : ∀ aj ∈ Finset.range V.n, ∀ cj ∈ Finset.range V.d,
        kEntry V p q ci ai cj aj = 0 := by
      intro aj _ cj _
      rw [kEntry, if_neg (by intro hc; exact hfree hc.1)]
    have hb : ∀ aj ∈ Finset.range V.np, bEntry V p q ci ai aj = 0 := by
      intro aj _
      rw [bEntry, if_neg (by intro hc; exact hfree hc.1)]
    rw [Finset.sum_eq_zero hb, Finset.sum_eq_zero, add_zero]
    intro aj haj
    exact Finset.sum_eq_zero (hk aj haj)

/-- Exchange of the roles of the two index pairs in a rectangular quadruple
sum. -/
theorem sum4_swap (d n : ℕ) (f : ℕ → ℕ → ℕ → ℕ → ℚ) :
    (∑ ci ∈ Finset.range d, ∑ ai ∈ Finset.range n,
      ∑ aj ∈ Finset.range n, ∑ cj ∈ Finset.range d, f ci ai cj aj)
    = ∑ ci ∈ Finset.range d, ∑ ai ∈ Finset.range n,
        ∑ aj ∈ Finset.range n, ∑ cj ∈ Finset.range d, f cj aj ci ai := by
  have h1 :
      (∑ ci ∈ Finset.range d, ∑ ai ∈ Finset.range n,
        ∑ aj ∈ Finset.range n, ∑ cj ∈ Finset.range d, f ci ai cj aj)
      = ∑ x ∈ (Finset.range d ×ˢ Finset.range n) ×ˢ
              (Finset.range n ×ˢ Finset.range d),
          f x.1.1 x.1.2 x.2.2 x.2.1 := by
    rw [Finset.sum_product, Finset.sum_product]
    apply Finset.sum_congr rfl
    intro ci _
    apply Finset.sum_congr rfl
    intro ai _
    rw [Finset.sum_product]
  have h2 :
      (∑ ci ∈ Finset.range d, ∑ ai ∈ Finset.range n,
        ∑ aj ∈ Finset.range n, ∑ cj ∈ Finset.range d, f cj aj ci ai)
      = ∑ x ∈ (Finset.range d ×ˢ Finset.range n) ×ˢ
              (Finset.range n ×ˢ Finset.range d),
          f x.2.2 x.2.1 x.1.1 x.1.2 := by
    rw [Finset.sum_product, Finset.sum_product]
    apply Finset.sum_congr rfl
    intro ci _
    apply Finset.sum_congr rfl
    intro ai _
    rw [Finset.sum_product]
  rw [h1, h2]
  apply Finset.sum_nbij' (fun x => ((x.2.2, x.2.1), (x.1.2, x.1.1)))
    (fun x => ((x.2.2, x.2.1), (x.1.2, x.1.1)))
  · intro a ha
    simp only [Finset.mem_product, Finset.mem_range] at *
    exact ⟨⟨ha.2.2, ha.2.1⟩, ha.1.2, ha.1.1⟩
  · intro a ha
    simp only [Finset.mem_product, Finset.mem_range] at *
    exact ⟨⟨ha.2.2, ha.2.1⟩, ha.1.2, ha.1.1⟩
  · intro a _
    rfl
  · intro a _
    rfl
  · intro a _
    rfl

theorem ind_pair_symm (u v p q : ℕ) (x : ℚ) :
    ind u v q p x + ind v u q p x = ind u v p q x + ind v u p q x := by
  rw [ind_swap u v p q x, ind_swap v u p q x]
  exact add_comm _ _

theorem bEntry_symm (V : ScatterIn) (p q ci ai aj : ℕ) :
    bEntry V q p ci ai aj = bEntry V p q ci ai aj := by
  rw [bEntry, bEntry]
  by_cases h : V.free ci (V.I ci ai) = true ∧ V.free V.d (V.I V.d aj) = true
  · rw [if_pos h, if_pos h]
    exact ind_pair_symm _ _ _ _ _
  · rw [if_neg h, if_neg h]

theorem cEntry_symm (V : ScatterIn) (p q ai aj : ℕ) :
    cEntry V q p ai aj = cEntry V p q ai aj := by
  rw [cEntry, cEntry]
  by_cases h : V.free V.d (V.I V.d ai) = true ∧ ai ≤ aj ∧ V.free V.d (V.I V.d aj) = true
  · rw [if_pos h, if_pos h]
    rcases Nat.lt_or_ge ai aj with hlt | hge
    · rw [if_pos hlt, if_pos hlt]
      exact ind_pair_symm _ _ _ _ _
    · have heq : ai = aj := le_antisymm h.2.1 hge
      subst heq
      simp only [lt_self_iff_false, if_false, add_zero]
      exact ind_swap _ _ _ _ _
  · rw [if_neg h, if_neg h]

/-- The diagonal (`ai = aj`) part of a `localMatK` scatter contribution: here
only the `(ii, jj)` write happens, its mirror being covered by the symmetric
`(cj, ci)` iteration of the component loops. -/
def kEntryDiag (V : ScatterIn) (p q ci ai cj aj : ℕ) : ℚ :=
  if ai = aj ∧ V.free ci (V.I ci ai) = true ∧ V.free cj (V.I cj aj) = true then
    ind (V.I ci ai) (V.I cj aj) p q (V.K (ci * V.n + ai) (cj * V.n + aj))
  else 0

/-- The strictly-upper (`ai < aj`) part of a `localMatK` scatter contribution:
the `(ii, jj)` write together with its explicit mirror write `(jj, ii)`. -/
def kEntryOff (V : ScatterIn) (p q ci ai cj aj : ℕ) : ℚ :=
  if ai < aj ∧ V.free ci (V.I ci ai) = true ∧ V.free cj (V.I cj aj) = true then
    ind (V.I ci ai) (V.I cj aj) p q (V.K (ci * V.n + ai) (cj * V.n + aj))
    + ind (V.I cj aj) (V.I ci ai) p q (V.K (ci * V.n + ai) (cj * V.n + aj))
  else 0

theorem kEntry_split (V : ScatterIn) (p q ci ai cj aj : ℕ) :
    kEntry V p q ci ai cj aj
      = kEntryDiag V p q ci ai cj aj + kEntryOff V p q ci ai cj aj := by
  rw [kEntry, kEntryDiag, kEntryOff]
  rcases lt_trichotomy ai aj with hlt | heq | hgt
  · by_cases h : V.free ci (V.I ci ai) = true ∧ V.free cj (V.I cj aj) = true
    · rw [if_pos ⟨h.1, Nat.le_of_lt hlt, h.2⟩, if_pos hlt,
        if_neg (by intro hc; exact Nat.lt_irrefl aj (hc.1 ▸ hlt)),
        if_pos ⟨hlt, h⟩, zero_add]
    · have h1 : ¬ (V.free ci (V.I ci ai) = true ∧ ai ≤ aj ∧ V.free cj (V.I cj aj) = true) := by
        intro hc; exact h ⟨hc.1, hc.2.2⟩
      have h2 : ¬ (ai = aj ∧ V.free ci (V.I ci ai) = true ∧ V.free cj (V.I cj aj) = true) := by
        intro hc; exact h hc.2
      have h3 : ¬ (ai < aj ∧ V.free ci (V.I ci ai) = true ∧ V.free cj (V.I cj aj) = true) := by
        intro hc; exact h hc.2
      rw [if_neg h1, if_neg h2, if_neg h3, add_zero]
  · subst heq
    by_cases h : V.free ci (V.I ci ai) = true ∧ V.free cj (V.I cj ai) = true
    · rw [if_pos ⟨h.1, Nat.le_refl ai, h.2⟩]
      simp only [lt_self_iff_false, false_and, if_false, add_zero,
        eq_self_iff_true, true_and]
      rw [if_pos h]
    · have h1 : ¬ (V.free ci (V.I ci ai) = true ∧ ai ≤ ai ∧ V.free cj (V.I cj ai) = true) := by
        intro hc; exact h ⟨hc.1, hc.2.2⟩
      have h2 : ¬ (ai = ai ∧ V.free ci (V.I ci ai) = true ∧ V.free cj (V.I cj ai) = true) := by
        intro hc; exact h hc.2
      have h3 : ¬ (ai < ai ∧ V.free ci (V.I ci ai) = true ∧ V.free cj (V.I cj ai) = true) := by
        intro hc; exact h hc.2
      rw [if_neg h1, if_neg h2, if_neg h3, add_zero]
  · have h1 : ¬ (V.free ci (V.I ci ai) = true ∧ ai ≤ aj ∧ V.free cj (V.I cj aj) = true) := by
      intro hc; exact Nat.lt_irrefl aj (Nat.lt_of_lt_of_le hgt hc.2.1)
    have h2 : ¬ (ai = aj ∧ V.free ci (V.I ci ai) = true ∧ V.free cj (V.I cj aj) = true) := by
      intro hc; exact Nat.lt_irrefl aj (hc.1 ▸ hgt)
    have h3 : ¬ (ai < aj ∧ V.free ci (V.I ci ai) = true ∧ V.free cj (V.I cj aj) = true) := by
      intro hc; exact Nat.lt_irrefl aj (Nat.lt_trans hgt hc.1)
    rw [if_neg h1, if_neg h2, if_neg h3, add_zero]

theorem kEntryOff_symm (V : ScatterIn) (p q ci ai cj aj : ℕ) :
    kEntryOff V q p ci ai cj aj = kEntryOff V p q ci ai cj aj := by
  rw [kEntryOff, kEntryOff]
  by_cases h : ai < aj ∧ V.free ci (V.I ci ai) = true ∧ V.free cj (V.I cj aj) = true
  · rw [if_pos h, if_pos h]
    exact ind_pair_symm _ _ _ _ _
  · rw [if_neg h, if_neg h]

/-- Same-basis-index block symmetry of the local displacement tangent: the
property of `localMatK` that `gsVisitorNonLinElasticityMixedTH::assemble`
establishes and that the mirror-write scheme of `localToGlobal` relies on. -/
def sameBasisSymm (V : ScatterIn) : Prop :=
  ∀ c c' a, c < V.d → c' < V.d → a < V.n →
    V.K (c * V.n + a) (c' * V.n + a) = V.K (c' * V.n + a) (c * V.n + a)

theorem kDiag_sum_symm (V : ScatterIn) (hK : sameBasisSymm V) (p q : ℕ) :
    (∑ ci ∈ Finset.range V.d, ∑ ai ∈ Finset.range V.n,
      ∑ aj ∈ Finset.range V.n, ∑ cj ∈ Finset.range V.d,
        kEntryDiag V q p ci ai cj aj)
    = ∑ ci ∈ Finset.range V.d, ∑ ai ∈ Finset.range V.n,
        ∑ aj ∈ Finset.range V.n, ∑ cj ∈ Finset.range V.d,
          kEntryDiag V p q ci ai cj aj := by
  rw [sum4_swap V.d V.n (fun ci ai cj aj => kEntryDiag V q p ci ai cj aj)]
  apply Finset.sum_congr rfl
  intro ci hci
  apply Finset.sum_congr rfl
  intro ai hai
  apply Finset.sum_congr rfl
  intro aj haj
  apply Finset.sum_congr rfl
  intro cj hcj
  rw [kEntryDiag, kEntryDiag]
  by_cases h : ai = aj ∧ V.free ci (V.I ci ai) = true ∧ V.free cj (V.I cj aj) = true
  · obtain ⟨heq, hf1, hf2⟩ := h
    subst heq
    rw [if_pos ⟨rfl, hf2, hf1⟩, if_pos ⟨rfl, hf1, hf2⟩, ind_swap,
      hK cj ci ai (Finset.mem_range.mp hcj) (Finset.mem_range.mp hci)
        (Finset.mem_range.mp hai)]
  · have h2 : ¬ (aj = ai ∧ V.free cj (V.I cj aj) = true ∧ V.free ci (V.I ci ai) = true) := by
      intro hc; exact h ⟨hc.1.symm, hc.2.2, hc.2.1⟩
    rw [if_neg h, if_neg h2]

theorem sum2_add (d n : ℕ) (f g : ℕ → ℕ → ℚ) :
    (∑ ci ∈ Finset.range d, ∑ ai ∈ Finset.range n, (f ci ai + g ci ai))
      = (∑ ci ∈ Finset.range d, ∑ ai ∈ Finset.range n, f ci ai)
        + ∑ ci ∈ Finset.range d, ∑ ai ∈ Finset.range n, g ci ai := by
  simp [Finset.sum_add_distrib]

theorem sum4_add (d n : ℕ) (f g : ℕ → ℕ → ℕ → ℕ → ℚ) :
    (∑ ci ∈ Finset.range d, ∑ ai ∈ Finset.range n,
      ∑ aj ∈ Finset.range n, ∑ cj ∈ Finset.range d,
        (f ci ai cj aj + g ci ai cj aj))
      = (∑ ci ∈ Finset.range d, ∑ ai ∈ Finset.range n,
          ∑ aj ∈ Finset.range n, ∑ cj ∈ Finset.range d, f ci ai cj aj)
        + ∑ ci ∈ Finset.range d, ∑ ai ∈ Finset.range n,
            ∑ aj ∈ Finset.range n, ∑ cj ∈ Finset.range d, g ci ai cj aj := by
  simp [Finset.sum_add_distrib]

/-- Symmetry of the total amount one `localToGlobal` call adds to the global
matrix, given the same-basis-index block symmetry of `localMatK`. -/
theorem wsumM_scatter_symm (V : ScatterIn) (hK : sameBasisSymm V) (p q : ℕ) :
    wsumM (matWritesKB V ++ matWritesC V) q p
      = wsumM (matWritesKB V ++ matWritesC V) p q := by
  rw [wsumM_append, wsumM_append, wsumM_matWritesKB, wsumM_matWritesKB,
    wsumM_matWritesC, wsumM_matWritesC]
  congr 1
  · rw [sum2_add, sum2_add]
    congr 1
    · have hq : ∀ r s : ℕ,
          (∑ ci ∈ Finset.range V.d, ∑ ai ∈ Finset.range V.n,
            ∑ aj ∈ Finset.range V.n, ∑ cj ∈ Finset.range V.d,
              kEntry V r s ci ai cj aj)
          = (∑ ci ∈ Finset.range V.d, ∑ ai ∈ Finset.range V.n,
              ∑ aj ∈ Finset.range V.n, ∑ cj ∈ Finset.range V.d,
                kEntryDiag V r s ci ai cj aj)
            + ∑ ci ∈ Finset.range V.d, ∑ ai ∈ Finset.range V.n,
                ∑ aj ∈ Finset.range V.n, ∑ cj ∈ Finset.range V.d,
                  kEntryOff V r s ci ai cj aj := by
        intro r s
        rw [← sum4_add]
        apply Finset.sum_congr rfl
        intro ci _
        apply Finset.sum_congr rfl
        intro ai _
        apply Finset.sum_congr rfl
        intro aj _
        apply Finset.sum_congr rfl
        intro cj _
        exact kEntry_split V r s ci ai cj aj
      rw [hq, hq]
      congr 1
      · exact kDiag_sum_symm V hK p q
      · apply Finset.sum_congr rfl
        intro ci _
        apply Finset.sum_congr rfl
        intro ai _
        apply Finset.sum_congr rfl
        intro aj _
        apply Finset.sum_congr rfl
        intro cj _
        exact kEntryOff_symm V p q ci ai cj aj
    · apply Finset.sum_congr rfl
      intro ci _
      apply Finset.sum_congr rfl
      intro ai _
      apply Finset.sum_congr rfl
      intro aj _
      exact bEntry_symm V p q ci ai aj
  · apply Finset.sum_congr rfl
    intro ai _
    apply Finset.sum_congr rfl
    intro aj _
    exact cEntry_symm V p q ai aj

theorem mem_ite_nil {α : Type} (p : Prop) [Decidable p] (l : List α) (a : α)
    (h : a ∈ (if p then l else [])) : p ∧ a ∈ l := by
  rcases Decidable.em p with hp | hp
  · rw [if_pos hp] at h; exact ⟨hp, h⟩
  · rw [if_neg hp] at h; exact absurd h (List.not_mem_nil a)

/-- Every matrix write issued by `localToGlobal` has a row index that is free
for one of the mappers and a column index that is free for one of the
mappers: the `is_free_index` guards (code lines 231, 243, 259, 279, 291)
precede every `coeffRef` accumulation. -/
theorem matWrites_free (V : ScatterIn) (w : ℕ × ℕ × ℚ)
    (hw : w ∈ matWritesKB V ++ matWritesC V) :
    (∃ c, c ≤ V.d ∧ V.free c w.1 = true)
      ∧ ∃ c, c ≤ V.d ∧ V.free c w.2.1 = true := by
  rcases List.mem_append.mp hw with hkb | hc
  · rw [matWritesKB] at hkb
    obtain ⟨ci, hci, hkb⟩ := List.mem_flatMap.mp hkb
    obtain ⟨ai, _, hkb⟩ := List.mem_flatMap.mp hkb
    obtain ⟨hfree, hkb⟩ := mem_ite_nil _ _ _ hkb
    have hci' : ci ≤ V.d := Nat.le_of_lt (List.mem_range.mp hci)
    rcases List.mem_append.mp hkb with hk | hb
    · obtain ⟨aj, _, hk⟩ := List.mem_flatMap.mp hk
      obtain ⟨cj, hcj, hk⟩ := List.mem_flatMap.mp hk
      obtain ⟨hfree2, hk⟩ := mem_ite_nil _ _ _ hk
      have hcj' : cj ≤ V.d := Nat.le_of_lt (List.mem_range.mp hcj)
      rcases List.mem_cons.mp hk with hw1 | hw2
      · subst hw1
        exact ⟨⟨ci, hci', hfree⟩, ⟨cj, hcj', hfree2⟩⟩
      · obtain ⟨_, hw2⟩ := mem_ite_nil _ _ _ hw2
        rw [List.mem_singleton.mp hw2]
        exact ⟨⟨cj, hcj', hfree2⟩, ⟨ci, hci', hfree⟩⟩
    · obtain ⟨aj, _, hb⟩ := List.mem_flatMap.mp hb
      obtain ⟨hfree2, hb⟩ := mem_ite_nil _ _ _ hb
      rcases List.mem_cons.mp hb with hw1 | hw2
      · subst hw1
        exact ⟨⟨ci, hci', hfree⟩, ⟨V.d, Nat.le_refl _, hfree2⟩⟩
      · rw [List.mem_singleton.mp hw2]
        exact ⟨⟨V.d, Nat.le_refl _, hfree2⟩, ⟨ci, hci', hfree⟩⟩
  · rw [matWritesC] at hc
    obtain ⟨ai, _, hc⟩ := List.mem_flatMap.mp hc
    obtain ⟨hfree, hc⟩ := mem_ite_nil _ _ _ hc
    obtain ⟨aj, _, hc⟩ := List.mem_flatMap.mp hc
    obtain ⟨hfree2, hc⟩ := mem_ite_nil _ _ _ hc
    rcases List.mem_cons.mp hc with hw1 | hw2
    · subst hw1
      exact ⟨⟨V.d, Nat.le_refl _, hfree⟩, ⟨V.d, Nat.le_refl _, hfree2⟩⟩
    · obtain ⟨_, hw2⟩ := mem_ite_nil _ _ _ hw2
      rw [List.mem_singleton.mp hw2]
      exact ⟨⟨V.d, Nat.le_refl _, hfree2⟩, ⟨V.d, Nat.le_refl _, hfree⟩⟩

/-- Every right-hand-side write issued by `localToGlobal` targets an index
that is free for one of the mappers. -/
theorem rhsWrites_free (V : ScatterIn) (w : ℕ × ℚ) (hw : w ∈ rhsWritesTH V) :
    ∃ c, c ≤ V.d ∧ V.free c w.1 = true := by
  rcases List.mem_append.mp hw with hu | hp
  · obtain ⟨ci, hci, hu⟩ := List.mem_flatMap.mp hu
    obtain ⟨ai, _, hu⟩ := List.mem_flatMap.mp hu
    obtain ⟨hfree, hu⟩ := mem_ite_nil _ _ _ hu
    rw [List.mem_singleton.mp hu]
    exact ⟨ci, Nat.le_of_lt (List.mem_range.mp hci), hfree⟩
  · obtain ⟨ai, _, hp⟩ := List.mem_flatMap.mp hp
    obtain ⟨hfree, hp⟩ := mem_ite_nil _ _ _ hp
    rw [List.mem_singleton.mp hp]
    exact ⟨V.d, Nat.le_refl _, hfree⟩

/-! ## The Newton driver `gsElasticityMixedTHNewton`

The driver delegates to the external `gsElasticityMixedTHAssembler` (its
implementation is not part of this source tree) and to the external sparse
LU solver.  Their observable behaviour inside `solve` is modelled by the
record below: what update vector the assemble-plus-solve pipeline produces,
what the norm of the assembled right-hand side is, and how coefficient
vectors are turned into solution fields.  Solution fields (`gsMultiPatch`)
and coefficient vectors are modelled as `ℕ → ℚ`. -/
structure THAssembler where
  /-- update vector obtained in `firstIteration` from `assemble()` (the
  linear-elasticity system at the initial configuration) followed by
  `m_solver.compute` and `m_solver.solve` -/
  firstUpdate : ℕ → ℚ
  /-- norm of the right-hand side assembled by `firstIteration` -/
  firstRhsNorm : ℚ
  /-- update vector obtained in `nextIteration` from
  `assemble(curSolution, curPressure)` followed by `factorize` and `solve`;
  a function of the configuration the system is assembled at -/
  update : (ℕ → ℚ) → (ℕ → ℚ) → ℕ → ℚ
  /-- norm of the right-hand side assembled at a configuration -/
  rhsNorm : (ℕ → ℚ) → (ℕ → ℚ) → ℚ
  /-- Euclidean norm of an update vector (`m_updateVector.norm()`) -/
  vecNorm : (ℕ → ℚ) → ℚ
  /-- displacement field extracted from an update vector by
  `constructSolution(·, ·, 0)` -/
  constructDisp : (ℕ → ℚ) → ℕ → ℚ
  /-- pressure field extracted from an update vector by
  `constructSolution(·, ·, 1)` -/
  constructPres : (ℕ → ℚ) → ℕ → ℚ

/-- Modelled from the spec: `gsElasticityMixedTHAssembler::constructSolution`
is not part of this source tree; per the specification the first iteration
uses it to *replace* the current fields by the fields constructed from the
update vector ("replace current solution by the update, per this
formulation — not an increment"). -/
def constructSolutionTH (A : THAssembler) (v : ℕ → ℚ) : (ℕ → ℚ) × (ℕ → ℚ) :=
  (A.constructDisp v, A.constructPres v)

/-- Modelled from the spec: `gsElasticityMixedTHAssembler::updateSolution` is
not part of this source tree; per the specification subsequent iterations
use it to apply the linear-solve result as an *additive* update to the
current solution ("additive update via a separate `updateSolution` call
afterward"). -/
def updateSolutionTH (A : THAssembler) (v : ℕ → ℚ) (sol pres : ℕ → ℚ) :
    (ℕ → ℚ) × (ℕ → ℚ) :=
  (fun i => sol i + A.constructDisp v i, fun i => pres i + A.constructPres v i)

/-- Mutable state of a `gsElasticityMixedTHNewton` object. -/
structure NewtonState where
  curSolution : ℕ → ℚ
  curPressure : ℕ → ℚ
  updateVector : ℕ → ℚ
  numIterations : ℕ
  maxIterations : ℕ
  tolerance : ℚ
  converged : Bool
  residue : ℚ
  updnorm : ℚ

/-- Member function `solution` (code lines 65-71): `i == 0` selects the
displacement field, any other index selects the pressure field. -/
def solution (s : NewtonState) (i : ℤ) : ℕ → ℚ :=
  if i = 0 then s.curSolution else s.curPressure

/-- Member function `firstIteration` (code lines 164-189): reset the
convergence flag, assemble and solve the linear-elasticity system, replace
the current fields via `constructSolution` and record the residual and
update norms. -/
def firstIteration (A : THAssembler) (s : NewtonState) : NewtonState :=
  { s with
    converged := false
    updateVector := A.firstUpdate
    curSolution := (constructSolutionTH A A.firstUpdate).1
    curPressure := (constructSolutionTH A A.firstUpdate).2
    residue := A.firstRhsNorm
    updnorm := A.vecNorm A.firstUpdate }

/-- Member function `nextIteration` (code lines 191-213): assemble at the
current configuration, factorize and solve, apply the update additively via
`updateSolution` and recompute the norms. -/
def nextIteration (A : THAssembler) (s : NewtonState) : NewtonState :=
  { s with
    updateVector := A.update s.curSolution s.curPressure
    curSolution :=
      (updateSolutionTH A (A.update s.curSolution s.curPressure)
        s.curSolution s.curPressure).1
    curPressure :=
      (updateSolutionTH A (A.update s.curSolution s.curPressure)
        s.curSolution s.curPressure).2
    residue := A.rhsNorm s.curSolution s.curPressure
    updnorm := A.vecNorm (A.update s.curSolution s.curPressure) }

/-- Iteration loop of `solve` (code lines 149-160),
`for (m_numIterations = 1; m_numIterations < m_maxIterations;
++m_numIterations)`.  The structural recursion runs on the loop's remaining
trip count `m_maxIterations - m`, which reaches `0` exactly when the loop
guard `m < m_maxIterations` fails; the counter `m` is the member
`m_numIterations`.  On normal exit `m_numIterations` equals the final
counter value, on convergence it retains the value at which the break
fired. -/
def solveLoop (A : THAssembler) (initResidue initUpdate : ℚ) :
    ℕ → ℕ → NewtonState → NewtonState
  | 0, m, s => { s with numIterations := m }
  | fuel + 1, m, s =>
      let s' := nextIteration A s
      if |s'.updnorm / initUpdate| < s.tolerance ∨
          |s'.residue / initResidue| < s.tolerance then
        { s' with converged := true, numIterations := m }
      else
        solveLoop A initResidue initUpdate fuel (m + 1) s'

/-- Member function `solve` (code lines 140-161): run `firstIteration`,
record the normalization baselines `initResidue` and `initUpdate`, then run
the iteration loop starting at counter value 1 (its trip count is
`m_maxIterations - 1`). -/
def solve (A : THAssembler) (s : NewtonState) : NewtonState :=
  let s1 := firstIteration A s
  solveLoop A s1.residue s1.updnorm (s1.maxIterations - 1) 1 s1

/-- Configuration reached after the first iteration followed by `m` calls of
`nextIteration` (the loop body does not branch on the convergence test, so
the states the loop visits are the iterates of `nextIteration`). -/
def traj (A : THAssembler) (s : NewtonState) (m : ℕ) : NewtonState :=
  (nextIteration A)^[m] (firstIteration A s)

/-- Convergence criterion evaluated by the loop at counter value `m ≥ 1`
(code lines 154-155), expressed over the iteration trajectory. -/
def crit (A : THAssembler) (s : NewtonState) (m : ℕ) : Prop :=
  |(traj A s m).updnorm / (firstIteration A s).updnorm| < s.tolerance ∨
    |(traj A s m).residue / (firstIteration A s).residue| < s.tolerance

theorem traj_zero (A : THAssembler) (s : NewtonState) :
    traj A s 0 = firstIteration A s := rfl

theorem traj_succ (A : THAssembler) (s : NewtonState) (m : ℕ) :
    traj A s (m + 1) = nextIteration A (traj A s m) :=
  Function.iterate_succ_apply' (nextIteration A) m (firstIteration A s)

theorem traj_maxIterations (A : THAssembler) (s : NewtonState) (m : ℕ) :
    (traj A s m).maxIterations = s.maxIterations := by
  induction m with
  | zero => rfl
  | succ k ih => rw [traj_succ]; exact ih

theorem traj_tolerance (A : THAssembler) (s : NewtonState) (m : ℕ) :
    (traj A s m).tolerance = s.tolerance := by
  induction m with
  | zero => rfl
  | succ k ih => rw [traj_succ]; exact ih

theorem traj_converged (A : THAssembler) (s : NewtonState) (m : ℕ) :
    (traj A s m).converged = false := by
  induction m with
  | zero => rfl
  | succ k ih => rw [traj_succ]; exact ih

instance critDecidable (A : THAssembler) (s : NewtonState) (m : ℕ) :
    Decidable (crit A s m) :=
  inferInstanceAs (Decidable (_ ∨ _))

/-- Behaviour of the iteration loop when the convergence test never fires in
the remaining counter range: the loop performs `nextIteration` until the
counter reaches `m_maxIterations` and leaves the convergence flag down. -/
theorem solveLoop_nocrit (A : THAssembler) (s0 : NewtonState) (m : ℕ)
    (hm : 1 ≤ m)
    (h : ∀ k, m ≤ k → k < s0.maxIterations → ¬ crit A s0 k) :
    solveLoop A (firstIteration A s0).residue (firstIteration A s0).updnorm
        (s0.maxIterations - m) m (traj A s0 (m - 1))
      = { traj A s0 (max m s0.maxIterations - 1) with
          numIterations := max m s0.maxIterations } := by
  generalize hfuel : s0.maxIterations - m = fuel
  induction fuel generalizing m with
  | zero =>
      rw [solveLoop]
      have h1 : max m s0.maxIterations = m := by omega
      rw [h1]
  | succ f ih =>
      rw [solveLoop]
      have hstep : nextIteration A (traj A s0 (m - 1)) = traj A s0 m := by
        rw [← traj_succ]
        congr 1
        omega
      have htol : (traj A s0 (m - 1)).tolerance = s0.tolerance :=
        traj_tolerance A s0 (m - 1)
      simp only [hstep, htol]
      have hnc : ¬ crit A s0 m := h m (Nat.le_refl m) (by omega)
      rw [crit] at hnc
      rw [if_neg hnc]
      have := ih (m + 1) (by omega) (fun k hk1 hk2 => h k (by omega) hk2)
        (by omega)
      have hm1 : m + 1 - 1 = m := by omega
      rw [hm1] at this
      rw [this]
      have : max (m + 1) s0.maxIterations = max m s0.maxIterations := by omega
      rw [this]

/-- Behaviour of the iteration loop when the convergence test first fires at
counter value `k`: the loop breaks there, raising the convergence flag and
freezing `m_numIterations` at `k`. -/
theorem solveLoop_crit (A : THAssembler) (s0 : NewtonState) (m k : ℕ)
    (hm : 1 ≤ m) (hmk : m ≤ k) (hk : k < s0.maxIterations)
    (hcrit : crit A s0 k)
    (hmin : ∀ j, m ≤ j → j < k → ¬ crit A s0 j) :
    solveLoop A (firstIteration A s0).residue (firstIteration A s0).updnorm
        (s0.maxIterations - m) m (traj A s0 (m - 1))
      = { traj A s0 k with converged := true, numIterations := k } := by
  generalize hfuel : k - m = fuel
  induction fuel generalizing m with
  | zero =>
      have hkm : k = m := by omega
      subst hkm
      have hpos : s0.maxIterations - k = (s0.maxIterations - k - 1) + 1 := by
        omega
      rw [hpos, solveLoop]
      have hstep : nextIteration A (traj A s0 (k - 1)) = traj A s0 k := by
        rw [← traj_succ]
        congr 1
        omega
      have htol : (traj A s0 (k - 1)).tolerance = s0.tolerance :=
        traj_tolerance A s0 (k - 1)
      simp only [hstep, htol]
      rw [crit] at hcrit
      rw [if_pos hcrit]
  | succ f ih =>
      have hpos : s0.maxIterations - m = (s0.maxIterations - (m + 1)) + 1 := by
        omega
      rw [hpos, solveLoop]
      have hstep : nextIteration A (traj A s0 (m - 1)) = traj A s0 m := by
        rw [← traj_succ]
        congr 1
        omega
      have htol : (traj A s0 (m - 1)).tolerance = s0.tolerance :=
        traj_tolerance A s0 (m - 1)
      simp only [hstep, htol]
      have hnc : ¬ crit A s0 m := hmin m (Nat.le_refl m) (by omega)
      rw [crit] at hnc
      rw [if_neg hnc]
      have := ih (m + 1) (by omega) (by omega)
        (fun j hj1 hj2 => hmin j (by omega) hj2) (by omega)
      have hm1 : m + 1 - 1 = m := by omega
      rw [hm1] at this
      exact this

theorem solve_eq_loop (A : THAssembler) (s0 : NewtonState) :
    solve A s0
      = solveLoop A (firstIteration A s0).residue (firstIteration A s0).updnorm
          (s0.maxIterations - 1) 1 (traj A s0 0) := rfl

/-- When no iteration in range satisfies the convergence test, `solve` runs
the loop to exhaustion. -/
theorem solve_nocrit (A : THAssembler) (s0 : NewtonState)
    (h : ∀ k, 1 ≤ k → k < s0.maxIterations → ¬ crit A s0 k) :
    solve A s0
      = { traj A s0 (max 1 s0.maxIterations - 1) with
          numIterations := max 1 s0.maxIterations } := by
  rw [solve_eq_loop]
  exact solveLoop_nocrit A s0 1 (Nat.le_refl 1) h

/-- When `k` is the first counter value in range satisfying the convergence
test, `solve` stops there with the convergence flag up. -/
theorem solve_crit_least (A : THAssembler) (s0 : NewtonState) (k : ℕ)
    (hk1 : 1 ≤ k) (hk2 : k < s0.maxIterations) (hc : crit A s0 k)
    (hmin : ∀ j, 1 ≤ j → j < k → ¬ crit A s0 j) :
    solve A s0 = { traj A s0 k with converged := true, numIterations := k } := by
  rw [solve_eq_loop]
  exact solveLoop_crit A s0 1 k (Nat.le_refl 1) hk1 hk2 hc
    (fun j hj1 hj2 => hmin j hj1 hj2)

theorem solve_converged_iff (A : THAssembler) (s0 : NewtonState) :
    (solve A s0).converged = true
      ↔ ∃ k, 1 ≤ k ∧ k < s0.maxIterations ∧ crit A s0 k := by
  constructor
  · intro hconv
    by_contra hnone
    push_neg at hnone
    have h : ∀ k, 1 ≤ k → k < s0.maxIterations → ¬ crit A s0 k := by
      intro k hk1 hk2 hc
      exact (hnone k hk1 hk2) hc
    rw [solve_nocrit A s0 h] at hconv
    simp only [traj_converged] at hconv
    exact Bool.false_ne_true hconv
  · intro hex
    obtain ⟨k, hk⟩ := hex
    revert hk
    induction k using Nat.strong_induction_on with
    | _ k ih =>
        intro hk
        obtain ⟨hk1, hk2, hc⟩ := hk
        by_cases hmin : ∀ j, 1 ≤ j → j < k → ¬ crit A s0 j
        · rw [solve_crit_least A s0 k hk1 hk2 hc hmin]
        · push_neg at hmin
          obtain ⟨j, hj1, hjk, hcj⟩ := hmin
          exact ih j hjk ⟨hj1, by omega, hcj⟩

/-! ## The element kernel `gsVisitorNonLinElasticityMixedTH::assemble`

Per-quadrature-point computation (code lines 89-202).  The Eigen matrix
operations on the `m_dim × m_dim` kinematic quantities are modelled with
Mathlib matrices over `Fin d`; `A.inverse()` is the adjugate divided by the
determinant (`minv`), which agrees with the Eigen inverse whenever the
matrix is invertible.  The local buffers `localRhs_u`, `localRhs_p`,
`localMatK`, `localMatB`, `localMatC` are `ℕ`-indexed, flattened exactly as
in the code (`di * numActive + i` for displacement rows). -/

/-- Matrix inverse as adjugate over determinant (the value Eigen's
`.inverse()` computes for an invertible matrix). -/
def minv {d : ℕ} (A : Matrix (Fin d) (Fin d) ℚ) : Matrix (Fin d) (Fin d) ℚ :=
  (A.det)⁻¹ • A.adjugate

/-- Entry `j` of a `Fin d`-vector, with out-of-range reads equal to `0`
(loops only read in-range entries). -/
def vecAt {d : ℕ} (v : Fin d → ℚ) (j : ℕ) : ℚ :=
  if h : j < d then v ⟨j, h⟩ else 0

/-- The matrix built by `gradU.setZero(); gradU.row(r) = g` (code lines
139-140, 154-155). -/
def rowMatN {d : ℕ} (r : ℕ) (g : Fin d → ℚ) : Matrix (Fin d) (Fin d) ℚ :=
  fun a b => if a.val = r then g b else 0

/-- Displacement gradient `H = (dx/dxi)^T^-1 * (du/dxi)^T` (code line 110,
with `defDer_k` the transposed deformation jacobian from line 101). -/
def displGradTH {d : ℕ} (geoJac defJac : Matrix (Fin d) (Fin d) ℚ) :
    Matrix (Fin d) (Fin d) ℚ :=
  minv geoJac.transpose * defJac.transpose

/-- Deformation gradient `F = H^T + I` (code lines 113-115). -/
def defGradTH {d : ℕ} (geoJac defJac : Matrix (Fin d) (Fin d) ℚ) :
    Matrix (Fin d) (Fin d) ℚ :=
  (displGradTH geoJac defJac).transpose + 1

/-- External evaluation data of one quadrature point: quadrature weight,
geometry measure, geometry jacobian, deformation-field jacobian, pressure
value, physical basis gradients (columns of `physGrad`), displacement and
pressure basis values, body-force values. -/
structure QPoint (d : ℕ) where
  quWeight : ℚ
  qmeasure : ℚ
  geoJac : Matrix (Fin d) (Fin d) ℚ
  defJac : Matrix (Fin d) (Fin d) ℚ
  p : ℚ
  physGrad : ℕ → Fin d → ℚ
  bVals : ℕ → ℚ
  pVals : ℕ → ℚ
  force : Fin d → ℚ

/-- Material data of the visitor: shear modulus `m_mu`, density `m_rho`,
time factor `m_tfac`, and the first Lamé parameter `m_lambda`, which the
code compares against `std::numeric_limits<T>::infinity()`; `none` models an
infinite `m_lambda`. -/
structure MaterialTH where
  mu : ℚ
  rho : ℚ
  tfac : ℚ
  lam : Option ℚ

/-- The test `m_lambda < std::numeric_limits<T>::infinity()` (code lines
177, 185). -/
def lamFinite (M : MaterialTH) : Bool := M.lam.isSome

/--`nearmup = m_mu*m_mu/m_lambda * weight` (code line 178).  The member is
only assigned — and only read — when `m_lambda` is finite, so the default
for the infinite case is unobservable. -/
def nearmupTH (M : MaterialTH) (weight : ℚ) : ℚ :=
  match M.lam with
  | some l => M.mu * M.mu / l * weight
  | none => 0

/-- Local element buffers of the visitor. -/
structure LocalTH where
  localRhs_u : ℕ → ℚ
  localRhs_p : ℕ → ℚ
  localMatK : ℕ → ℕ → ℚ
  localMatB : ℕ → ℕ → ℚ
  localMatC : ℕ → ℕ → ℚ

/-- Writes of the internal-force loop (code lines 128-137):
`localRhs_u(di*numActive+i) -= locResVec(di)` with
`locResVec = locResMat * physGrad.col(i)`. -/
def uStressWrites (d n : ℕ) (locResMat : Matrix (Fin d) (Fin d) ℚ)
    (physGrad : ℕ → Fin d → ℚ) : List (ℕ × ℚ) :=
  (List.range n).flatMap fun i =>
    (List.range d).flatMap fun di =>
      [(di * n + i, -(vecAt (locResMat.mulVec (physGrad i)) di))]

/-- Writes of the body-force loop (code lines 199-201). -/
def uForceWrites (d n : ℕ) (weight : ℚ) (M : MaterialTH) (force : Fin d → ℚ)
    (bVals : ℕ → ℚ) : List (ℕ × ℚ) :=
  (List.range d).flatMap fun j =>
    (List.range n).map fun i =>
      (j * n + i, weight * M.rho * vecAt force j * M.tfac * bVals i)

/-- Writes of the tangent-stiffness loop (code lines 145-167), upper
triangle `j ≥ i` only:
`localMatK(di*numActive+i, dj*numActive+j) += weight * locKtgVal` with
`locKtgVal = mu*tr(gradU^T gradV) + muprex*tr((Fi gradU)(Fi gradV))`. -/
def kWrites (d n : ℕ) (weight mu muprex : ℚ)
    (Fi : Matrix (Fin d) (Fin d) ℚ) (physGrad : ℕ → Fin d → ℚ) :
    List (ℕ × ℕ × ℚ) :=
  (List.range n).flatMap fun i =>
    (List.range d).flatMap fun di =>
      (List.range' i (n - i)).flatMap fun j =>
        (List.range d).map fun dj =>
          (di * n + i, dj * n + j,
            weight * (mu * ((rowMatN di (physGrad i)).transpose
                              * rowMatN dj (physGrad j)).trace
              + muprex * ((Fi * rowMatN di (physGrad i))
                              * (Fi * rowMatN dj (physGrad j))).trace))

/-- Writes of the coupling-block loop (code lines 169-173):
`localMatB(j, di*numActive+i) += weight*mu*tr(Fi gradU)*basisVals_p(j)`. -/
def bWrites (d n np : ℕ) (weight mu : ℚ) (Fi : Matrix (Fin d) (Fin d) ℚ)
    (physGrad : ℕ → Fin d → ℚ) (pVals : ℕ → ℚ) : List (ℕ × ℕ × ℚ) :=
  (List.range n).flatMap fun i =>
    (List.range d).flatMap fun di =>
      (List.range np).map fun j =>
        (j, di * n + i,
          weight * mu * (Fi * rowMatN di (physGrad i)).trace * pVals j)

/-- Writes of the pressure-residual loop (code lines 180-187):
`localRhs_p(i) -= logdetF * basisVals_p(i)` always, plus the
near-incompressibility penalty `+ nearmup/mu * prex * basisVals_p(i)` when
`m_lambda` is finite. -/
def pWrites (np : ℕ) (logdetF nearmup mu prex : ℚ) (lamFin : Bool)
    (pVals : ℕ → ℚ) : List (ℕ × ℚ) :=
  (List.range np).flatMap fun i =>
    (i, -(logdetF * pVals i)) ::
      (if lamFin then [(i, nearmup / mu * prex * pVals i)] else [])

/-- Writes of the pressure-pressure loop (code lines 189-194), executed only
when `m_lambda` is finite, upper triangle `j ≥ i` only:
`localMatC(i,j) -= nearmup * basisVals_p(i) * basisVals_p(j)`. -/
def cWrites (np : ℕ) (nearmup : ℚ) (lamFin : Bool) (pVals : ℕ → ℚ) :
    List (ℕ × ℕ × ℚ) :=
  (List.range np).flatMap fun i =>
    if lamFin then
      (List.range' i (np - i)).map fun j =>
        (i, j, -(nearmup * pVals i * pVals j))
    else []

/-- Effective weight `weight = quWeights[k] * geoEval.measure(k)` (code line
93). -/
def weightTH {d : ℕ} (Q : QPoint d) : ℚ := Q.quWeight * Q.qmeasure

/-- Scaled pressure `prex_k = m_mu * pressure(k)` (code line 106). -/
def prexTH {d : ℕ} (M : MaterialTH) (Q : QPoint d) : ℚ := M.mu * Q.p

/-- `muprex = m_mu - prex_k` (code line 107). -/
def muprexTH {d : ℕ} (M : MaterialTH) (Q : QPoint d) : ℚ :=
  M.mu - prexTH M Q

/-- `logdetF = weight * m_mu * math::log(detF)` (code lines 118-119). -/
def logdetFTH {d : ℕ} (M : MaterialTH) (mylog : ℚ → ℚ) (Q : QPoint d) : ℚ :=
  weightTH Q * M.mu * mylog (defGradTH Q.geoJac Q.defJac).det

/-- `defGrad_inv = defGrad.inverse()` (code line 122). -/
def defGrad_invTH {d : ℕ} (Q : QPoint d) : Matrix (Fin d) (Fin d) ℚ :=
  minv (defGradTH Q.geoJac Q.defJac)

/-- `locResMat = (weight*mu)*(F - Fi^T) + (weight*prex)*Fi^T` (code line
125). -/
def locResMatTH {d : ℕ} (M : MaterialTH) (Q : QPoint d) :
    Matrix (Fin d) (Fin d) ℚ :=
  (weightTH Q * M.mu) • (defGradTH Q.geoJac Q.defJac
      - (defGrad_invTH Q).transpose)
    + (weightTH Q * prexTH M Q) • (defGrad_invTH Q).transpose

/-- One iteration of the quadrature loop of `assemble` (code lines 89-202):
all accumulations into the local buffers for quadrature point `Q`. -/
def assembleQP (d n np : ℕ) (M : MaterialTH) (mylog : ℚ → ℚ) (Q : QPoint d)
    (st : LocalTH) : LocalTH :=
  { localRhs_u := applyV
      (uStressWrites d n (locResMatTH M Q) Q.physGrad
        ++ uForceWrites d n (weightTH Q) M Q.force Q.bVals) st.localRhs_u
    localRhs_p := applyV
      (pWrites np (logdetFTH M mylog Q) (nearmupTH M (weightTH Q)) M.mu
        (prexTH M Q) (lamFinite M) Q.pVals)
      st.localRhs_p
    localMatK := applyM
      (kWrites d n (weightTH Q) M.mu (muprexTH M Q) (defGrad_invTH Q)
        Q.physGrad)
      st.localMatK
    localMatB := applyM
      (bWrites d n np (weightTH Q) M.mu (defGrad_invTH Q) Q.physGrad Q.pVals)
      st.localMatB
    localMatC := applyM
      (cWrites np (nearmupTH M (weightTH Q)) (lamFinite M) Q.pVals)
      st.localMatC }

/-- The whole quadrature loop of `assemble`: left fold of the per-point
kernel over the quadrature points of the element. -/
def assembleTH (d n np : ℕ) (M : MaterialTH) (mylog : ℚ → ℚ)
    (qps : List (QPoint d)) (st : LocalTH) : LocalTH :=
  qps.foldl (fun s Q => assembleQP d n np M mylog Q s) st

theorem wsumV_uStressWrites (d n : ℕ) (L : Matrix (Fin d) (Fin d) ℚ)
    (pg : ℕ → Fin d → ℚ) (i di : ℕ) (hi : i < n) (hdi : di < d) :
    wsumV (uStressWrites d n L pg) (di * n + i)
      = -(vecAt (L.mulVec (pg i)) di) := by
  rw [uStressWrites, wsumV_flatMap, sum_map_range]
  have houter :
      (∑ i2 ∈ Finset.range n,
        wsumV ((List.range d).flatMap fun di2 =>
          [(di2 * n + i2, -(vecAt (L.mulVec (pg i2)) di2))]) (di * n + i))
      = wsumV ((List.range d).flatMap fun di2 =>
          [(di2 * n + i, -(vecAt (L.mulVec (pg i)) di2))]) (di * n + i) := by
    apply Finset.sum_eq_single_of_mem i (Finset.mem_range.mpr hi)
    intro b hb hne
    rw [wsumV_flatMap, sum_map_range]
    apply Finset.sum_eq_zero
    intro c _
    have hnc : ¬ (c * n + b = di * n + i) := by
      intro hcon
      exact hne (flat_index_inj n c di b i (Finset.mem_range.mp hb) hi hcon).2
    simp [wsumV, hnc]
  rw [houter, wsumV_flatMap, sum_map_range]
  have hinner :
      (∑ di2 ∈ Finset.range d,
        wsumV [(di2 * n + i, -(vecAt (L.mulVec (pg i)) di2))] (di * n + i))
      = wsumV [(di * n + i, -(vecAt (L.mulVec (pg i)) di))] (di * n + i) := by
    apply Finset.sum_eq_single_of_mem di (Finset.mem_range.mpr hdi)
    intro c _ hne
    have hnc : ¬ (c * n + i = di * n + i) := by
      intro hcon
      exact hne (flat_index_inj n c di i i hi hi hcon).1
    simp [wsumV, hnc]
  rw [hinner]
  simp [wsumV]

theorem wsumV_uForceWrites (d n : ℕ) (weight : ℚ) (M : MaterialTH)
    (force : Fin d → ℚ) (bVals : ℕ → ℚ) (i di : ℕ) (hi : i < n)
    (hdi : di < d) :
    wsumV (uForceWrites d n weight M force bVals) (di * n + i)
      = weight * M.rho * vecAt force di * M.tfac * bVals i := by
  rw [uForceWrites, wsumV_flatMap, sum_map_range]
  have houter :
      (∑ j ∈ Finset.range d,
        wsumV ((List.range n).map fun i2 =>
          (j * n + i2, weight * M.rho * vecAt force j * M.tfac * bVals i2))
          (di * n + i))
      = wsumV ((List.range n).map fun i2 =>
          (di * n + i2, weight * M.rho * vecAt force di * M.tfac * bVals i2))
          (di * n + i) := by
    apply Finset.sum_eq_single_of_mem di (Finset.mem_range.mpr hdi)
    intro b hb hne
    apply wsumV_eq_zero
    intro w hw
    simp only [List.mem_map, List.mem_range] at hw
    obtain ⟨i2, hi2, rfl⟩ := hw
    intro hcon
    exact hne (flat_index_inj n b di i2 i hi2 hi hcon).1
  rw [houter]
  rw [wsumV]
  rw [List.map_map]
  have hmap :
      ((List.range n).map
        ((fun w : ℕ × ℚ => if w.1 = di * n + i then w.2 else 0) ∘
          fun i2 =>
            (di * n + i2, weight * M.rho * vecAt force di * M.tfac * bVals i2))).sum
      = ∑ i2 ∈ Finset.range n,
          if di * n + i2 = di * n + i then
            weight * M.rho * vecAt force di * M.tfac * bVals i2
          else 0 := by
    rw [sum_map_range]
    rfl
  rw [hmap]
  have hcollapse :
      (∑ i2 ∈ Finset.range n,
        if di * n + i2 = di * n + i then
          weight * M.rho * vecAt force di * M.tfac * bVals i2
        else 0)
      = if di * n + i = di * n + i then
          weight * M.rho * vecAt force di * M.tfac * bVals i
        else 0 := by
    apply Finset.sum_eq_single_of_mem i (Finset.mem_range.mpr hi)
    intro b hb hne
    have hnc : ¬ (di * n + b = di * n + i) := by
      intro hcon
      exact hne (flat_index_inj n di di b i (Finset.mem_range.mp hb) hi hcon).2
    rw [if_neg hnc]
  rw [hcollapse, if_pos rfl]

theorem wsumV_pWrites (np : ℕ) (logdetF nearmup mu prex : ℚ) (lamFin : Bool)
    (pVals : ℕ → ℚ) (i : ℕ) (hi : i < np) :
    wsumV (pWrites np logdetF nearmup mu prex lamFin pVals) i
      = -(logdetF * pVals i)
        + (if lamFin then nearmup / mu * prex * pVals i else 0) := by
  rw [pWrites, wsumV_flatMap, sum_map_range]
  have houter :
      (∑ i2 ∈ Finset.range np,
        wsumV ((i2, -(logdetF * pVals i2)) ::
          (if lamFin then [(i2, nearmup / mu * prex * pVals i2)] else [])) i)
      = wsumV ((i, -(logdetF * pVals i)) ::
          (if lamFin then [(i, nearmup / mu * prex * pVals i)] else [])) i := by
    apply Finset.sum_eq_single_of_mem i (Finset.mem_range.mpr hi)
    intro b _ hne
    rw [wsumV_cons, wsumV_ite]
    cases lamFin with
    | false => simp [wsumV, hne]
    | true => simp [wsumV, hne]
  rw [houter, wsumV_cons, wsumV_ite]
  cases lamFin with
  | false => simp [wsumV]
  | true => simp [wsumV]

theorem wsumM_cWrites (np : ℕ) (nearmup : ℚ) (lamFin : Bool)
    (pVals : ℕ → ℚ) (i j : ℕ) (hij : i ≤ j) (hj : j < np) :
    wsumM (cWrites np nearmup lamFin pVals) i j
      = if lamFin then -(nearmup * pVals i * pVals j) else 0 := by
  have hi : i < np := Nat.lt_of_le_of_lt hij hj
  rw [cWrites, wsumM_flatMap, sum_map_range]
  cases lamFin with
  | false =>
      simp only [Bool.false_eq_true, if_false]
      apply Finset.sum_eq_zero
      intro b _
      rfl
  | true =>
      simp only [if_true]
      have houter :
          (∑ i2 ∈ Finset.range np,
            wsumM ((List.range' i2 (np - i2)).map fun j2 =>
              (i2, j2, -(nearmup * pVals i2 * pVals j2))) i j)
          = wsumM ((List.range' i (np - i)).map fun j2 =>
              (i, j2, -(nearmup * pVals i * pVals j2))) i j := by
        apply Finset.sum_eq_single_of_mem i (Finset.mem_range.mpr hi)
        intro b _ hne
        apply wsumM_eq_zero
        intro w hw
        simp only [List.mem_map] at hw
        obtain ⟨j2, _, rfl⟩ := hw
        intro hcon
        exact hne hcon.1
      rw [houter, wsumM]
      rw [List.map_map]
      have hmap :
          ((List.range' i (np - i)).map
            ((fun w : ℕ × ℕ × ℚ => if w.1 = i ∧ w.2.1 = j then w.2.2 else 0) ∘
              fun j2 => (i, j2, -(nearmup * pVals i * pVals j2)))).sum
          = ∑ j2 ∈ Finset.range np,
              if i ≤ j2 then
                (if i = i ∧ j2 = j then -(nearmup * pVals i * pVals j2) else 0)
              else 0 := by
        rw [sum_map_range' _ i np (Nat.le_of_lt hi)]
        rfl
      rw [hmap]
      have hcollapse :
          (∑ j2 ∈ Finset.range np,
            if i ≤ j2 then
              (if i = i ∧ j2 = j then -(nearmup * pVals i * pVals j2) else 0)
            else 0)
          = if i ≤ j then
              (if i = i ∧ j = j then -(nearmup * pVals i * pVals j) else 0)
            else 0 := by
        apply Finset.sum_eq_single_of_mem j (Finset.mem_range.mpr hj)
        intro b _ hne
        by_cases hb : i ≤ b
        · rw [if_pos hb, if_neg (by intro hc; exact hne hc.2)]
        · rw [if_neg hb]
      rw [hcollapse, if_pos hij, if_pos ⟨rfl, rfl⟩]

theorem cWrites_infinite (np : ℕ) (nearmup : ℚ) (pVals : ℕ → ℚ) :
    cWrites np nearmup false pVals = [] := by
  rw [cWrites]
  induction List.range np with
  | nil => rfl
  | cons a t ih => rw [List.flatMap_cons, ih]; rfl

theorem assembleQP_localRhs_u (d n np : ℕ) (M : MaterialTH) (mylog : ℚ → ℚ)
    (Q : QPoint d) (st : LocalTH) (i di : ℕ) (hi : i < n) (hdi : di < d) :
    (assembleQP d n np M mylog Q st).localRhs_u (di * n + i)
      = st.localRhs_u (di * n + i)
        - vecAt ((locResMatTH M Q).mulVec (Q.physGrad i)) di
        + weightTH Q * M.rho * vecAt Q.force di * M.tfac * Q.bVals i := by
  simp only [assembleQP]
  rw [applyV_apply, wsumV_append,
    wsumV_uStressWrites d n (locResMatTH M Q) Q.physGrad i di hi hdi,
    wsumV_uForceWrites d n (weightTH Q) M Q.force Q.bVals i di hi hdi]
  ring

theorem assembleQP_localRhs_p (d n np : ℕ) (M : MaterialTH) (mylog : ℚ → ℚ)
    (Q : QPoint d) (st : LocalTH) (i : ℕ) (hi : i < np) :
    (assembleQP d n np M mylog Q st).localRhs_p i
      = st.localRhs_p i - logdetFTH M mylog Q * Q.pVals i
        + (if lamFinite M then
            nearmupTH M (weightTH Q) / M.mu * prexTH M Q * Q.pVals i
          else 0) := by
  simp only [assembleQP]
  rw [applyV_apply, wsumV_pWrites np (logdetFTH M mylog Q)
    (nearmupTH M (weightTH Q)) M.mu (prexTH M Q) (lamFinite M) Q.pVals i hi]
  ring

theorem assembleQP_localMatC (d n np : ℕ) (M : MaterialTH) (mylog : ℚ → ℚ)
    (Q : QPoint d) (st : LocalTH) (i j : ℕ) (hij : i ≤ j) (hj : j < np) :
    (assembleQP d n np M mylog Q st).localMatC i j
      = st.localMatC i j
        + (if lamFinite M then
            -(nearmupTH M (weightTH Q) * Q.pVals i * Q.pVals j)
          else 0) := by
  simp only [assembleQP]
  rw [applyM_apply, wsumM_cWrites np (nearmupTH M (weightTH Q)) (lamFinite M)
    Q.pVals i j hij hj]

theorem assembleQP_localMatC_infinite (d n np : ℕ) (M : MaterialTH)
    (mylog : ℚ → ℚ) (Q : QPoint d) (st : LocalTH) (h : lamFinite M = false) :
    (assembleQP d n np M mylog Q st).localMatC = st.localMatC := by
  simp only [assembleQP]
  rw [h, cWrites_infinite]
  rfl

theorem vecAt_smul {d : ℕ} (c : ℚ) (v : Fin d → ℚ) (j : ℕ) :
    vecAt (c • v) j = c * vecAt v j := by
  rw [vecAt, vecAt]
  split
  · simp
  · simp

theorem locResMatTH_eq {d : ℕ} (M : MaterialTH) (Q : QPoint d) :
    locResMatTH M Q
      = weightTH Q •
          (M.mu • (defGradTH Q.geoJac Q.defJac - (defGrad_invTH Q).transpose)
            + prexTH M Q • (defGrad_invTH Q).transpose) := by
  rw [locResMatTH, smul_add, smul_smul, smul_smul]

/-- C3: at each quadrature point, for every active displacement basis
function `i` and spatial component `di`, the visitor subtracts from the
local displacement residual the quantity
`weight * [mu*(F - F^-T) + prex*F^-T] * grad(phi_i)` (component `di`), with
`prex = mu*p`, `weight` the quadrature weight times the geometry measure and
`F = I + H^T` (`defGradTH`, built from the displacement gradient `H` of code
line 110); the body-force term of code lines 199-201 is the only other
contribution of the quadrature point to this residual entry. -/
theorem visitor_displacement_residual_step (d n np : ℕ) (M : MaterialTH)
    (mylog : ℚ → ℚ) (Q : QPoint d) (st : LocalTH) (i di : ℕ)
    (hi : i < n) (hdi : di < d) :
    (assembleQP d n np M mylog Q st).localRhs_u (di * n + i)
      = st.localRhs_u (di * n + i)
        - weightTH Q *
            vecAt
              ((M.mu • (defGradTH Q.geoJac Q.defJac
                    - (minv (defGradTH Q.geoJac Q.defJac)).transpose)
                  + (M.mu * Q.p) •
                      (minv (defGradTH Q.geoJac Q.defJac)).transpose).mulVec
                (Q.physGrad i)) di
        + weightTH Q * M.rho * vecAt Q.force di * M.tfac * Q.bVals i := by
  rw [assembleQP_localRhs_u d n np M mylog Q st i di hi hdi, locResMatTH_eq,
    Matrix.smul_mulVec_assoc, vecAt_smul]
  rfl

/-- Value identity for the pressure penalty term: the code's
`nearmup/mu * prex * psi` equals the specified `(mu^2/lambda)*weight*p*psi`. -/
theorem penalty_value (mu l w p : ℚ) :
    mu * mu / l * w / mu * (mu * p) = mu * mu / l * w * p := by
  by_cases hmu : mu = 0
  · subst hmu
    simp
  · rw [div_mul_eq_mul_div, mul_comm mu p, ← mul_assoc,
      mul_div_assoc (mu * mu / l * w * p) mu mu, div_self hmu, mul_one]

/-- C7: at each quadrature point, the visitor subtracts
`weight*mu*log(J)*psi_i` from the local pressure residual; exactly when
`m_lambda` is finite it additionally adds the near-incompressibility penalty
`(mu^2/lambda)*weight*p*psi_i` to the pressure residual and subtracts
`(mu^2/lambda)*weight*psi_i*psi_j` from the pressure-pressure block for
`j ≥ i`; when `m_lambda` is infinite the `C` block is left untouched. -/
theorem visitor_pressure_residual_step (d n np : ℕ) (M : MaterialTH)
    (mylog : ℚ → ℚ) (Q : QPoint d) (st : LocalTH) :
    (∀ i, i < np →
      (assembleQP d n np M mylog Q st).localRhs_p i
        = st.localRhs_p i
          - weightTH Q * M.mu * mylog (defGradTH Q.geoJac Q.defJac).det
              * Q.pVals i
          + (match M.lam with
             | some l => M.mu * M.mu / l * weightTH Q * Q.p * Q.pVals i
             | none => 0))
    ∧ (∀ i j, i ≤ j → j < np →
      (assembleQP d n np M mylog Q st).localMatC i j
        = st.localMatC i j
          - (match M.lam with
             | some l => M.mu * M.mu / l * weightTH Q * Q.pVals i * Q.pVals j
             | none => 0))
    ∧ (M.lam = none →
        (assembleQP d n np M mylog Q st).localMatC = st.localMatC) := by
  refine ⟨?hp, ?hc, ?hinf⟩
  case hp =>
    intro i hi
    rw [assembleQP_localRhs_p d n np M mylog Q st i hi]
    cases hlam : M.lam with
    | none =>
        have : lamFinite M = false := by rw [lamFinite, hlam]; rfl
        rw [this, logdetFTH]
        simp
    | some l =>
        have hfin : lamFinite M = true := by rw [lamFinite, hlam]; rfl
        rw [hfin, if_pos rfl, logdetFTH, nearmupTH, prexTH, hlam]
        show st.localRhs_p i
              - weightTH Q * M.mu * mylog (defGradTH Q.geoJac Q.defJac).det
                  * Q.pVals i
              + M.mu * M.mu / l * weightTH Q / M.mu * (M.mu * Q.p) * Q.pVals i
            = st.localRhs_p i
              - weightTH Q * M.mu * mylog (defGradTH Q.geoJac Q.defJac).det
                  * Q.pVals i
              + M.mu * M.mu / l * weightTH Q * Q.p * Q.pVals i
        rw [penalty_value M.mu l (weightTH Q) Q.p]
  case hc =>
    intro i j hij hj
    rw [assembleQP_localMatC d n np M mylog Q st i j hij hj]
    cases hlam : M.lam with
    | none =>
        have : lamFinite M = false := by rw [lamFinite, hlam]; rfl
        rw [this]
        simp
    | some l =>
        have hfin : lamFinite M = true := by rw [lamFinite, hlam]; rfl
        rw [hfin, if_pos rfl, nearmupTH, hlam]
        show st.localMatC i j
              + -(M.mu * M.mu / l * weightTH Q * Q.pVals i * Q.pVals j)
            = st.localMatC i j
              - M.mu * M.mu / l * weightTH Q * Q.pVals i * Q.pVals j
        ring
  case hinf =>
    intro hlam
    apply assembleQP_localMatC_infinite
    rw [lamFinite, hlam]
    rfl

/-- A quadrature point of an inverted element: the geometry map is the
identity and the deformation jacobian makes `F = diag(-2, 1)`, so
`J = det F = -2 ≤ 0`. -/
def degenerateQP : QPoint 2 where
  quWeight := 1
  qmeasure := 1
  geoJac := 1
  defJac := !![-3, 0; 0, 0]
  p := 0
  physGrad := fun _ _ => 0
  bVals := fun _ => 0
  pVals := fun _ => 1
  force := fun _ => 0

/-- Material data `mu = 1`, `rho = 0`, `tfac = 1`, infinite `lambda`. -/
def degenerateMat : MaterialTH where
  mu := 1
  rho := 0
  tfac := 1
  lam := none

theorem degenerate_defGrad :
    defGradTH degenerateQP.geoJac degenerateQP.defJac = !![-2, 0; 0, 1] := by
  have hH : displGradTH degenerateQP.geoJac degenerateQP.defJac
      = (!![-3, 0; 0, 0] : Matrix (Fin 2) (Fin 2) ℚ).transpose := by
    rw [displGradTH]
    show minv (1 : Matrix (Fin 2) (Fin 2) ℚ).transpose
        * (!![-3, 0; 0, 0] : Matrix (Fin 2) (Fin 2) ℚ).transpose = _
    rw [Matrix.transpose_one, minv, Matrix.det_one, Matrix.adjugate_one]
    simp
  rw [defGradTH, hH, Matrix.transpose_transpose]
  ext i j
  fin_cases i <;> fin_cases j <;> norm_num [Matrix.one_apply]

theorem degenerate_detF :
    (defGradTH degenerateQP.geoJac degenerateQP.defJac).det = -2 := by
  rw [degenerate_defGrad, Matrix.det_fin_two]
  norm_num

/-- C1: the element kernel performs no `J ≤ 0` check: on the inverted
configuration with `J = det F = -2` the assembly does not fail — it simply
evaluates `math::log` at the nonpositive argument `-2` and accumulates the
result into the local pressure residual (code lines 118-119, 182).  No
`InvalidConfiguration` error condition exists anywhere in the visitor or in
the Newton driver. -/
theorem visitor_no_detF_check :
    (defGradTH degenerateQP.geoJac degenerateQP.defJac).det = -2
    ∧ ∀ (mylog : ℚ → ℚ) (st : LocalTH),
        (assembleQP 2 1 1 degenerateMat mylog degenerateQP st).localRhs_p 0
          = st.localRhs_p 0 - mylog (-2) := by
  refine ⟨degenerate_detF, ?_⟩
  intro mylog st
  rw [assembleQP_localRhs_p 2 1 1 degenerateMat mylog degenerateQP st 0
    (by decide)]
  have hinf : lamFinite degenerateMat = false := rfl
  rw [hinf, logdetFTH, degenerate_detF]
  show st.localRhs_p 0
      - weightTH degenerateQP * degenerateMat.mu * mylog (-2)
          * degenerateQP.pVals 0 + 0
    = st.localRhs_p 0 - mylog (-2)
  have hw : weightTH degenerateQP = 1 := by
    rw [weightTH]
    show (1 : ℚ) * 1 = 1
    norm_num
  have hmu : degenerateMat.mu = 1 := rfl
  have hpv : degenerateQP.pVals 0 = 1 := rfl
  rw [hw, hmu, hpv]
  ring

/-- C2: for every call of `localToGlobal`, the net contribution scattered
into the global sparse matrix is symmetric — the amount added at `(p, q)`
equals the amount added at `(q, p)` for all global indices, across the
`localMatK`, `localMatB` and `localMatC` blocks — even though the local
matrices are only filled for the upper triangle.  The hypothesis is the
same-basis-index block symmetry of `localMatK`
(`K(c*n+a, c2*n+a) = K(c2*n+a, c*n+a)`), which is exactly the property the
`assemble` kernel establishes (its equal-basis tangent value
`locKtgVal` is symmetric in the two spatial components, see
`kWrites_sameBasis_symm` below). -/
theorem localToGlobal_scatter_symmetric (V : ScatterIn) (sys : ℕ → ℕ → ℚ)
    (hK : ∀ c c2 a, c < V.d → c2 < V.d → a < V.n →
      V.K (c * V.n + a) (c2 * V.n + a) = V.K (c2 * V.n + a) (c * V.n + a))
    (p q : ℕ) :
    localToGlobalMat V sys p q - sys p q
      = localToGlobalMat V sys q p - sys q p := by
  rw [localToGlobalMat, applyM_apply, applyM_apply, add_sub_cancel_left,
    add_sub_cancel_left]
  exact (wsumM_scatter_symm V hK p q).symm

/-- C4: degrees of freedom whose resolved global index is eliminated are
skipped entirely by `localToGlobal`: a global index `e` that no mapper
reports free has its matrix row, matrix column and right-hand-side entry
unchanged, and conversely any matrix or right-hand-side entry that changes
lies at indices reported free by one of the mappers. -/
theorem localToGlobal_skips_eliminated (V : ScatterIn) (sys : ℕ → ℕ → ℚ)
    (rhs : ℕ → ℚ) (e : ℕ) (he : ∀ c, c ≤ V.d → V.free c e = false) :
    (∀ p, localToGlobalMat V sys p e = sys p e)
    ∧ (∀ p, localToGlobalMat V sys e p = sys e p)
    ∧ localToGlobalRhs V rhs e = rhs e
    ∧ (∀ p q, localToGlobalMat V sys p q ≠ sys p q →
        (∃ c, c ≤ V.d ∧ V.free c p = true)
          ∧ ∃ c, c ≤ V.d ∧ V.free c q = true)
    ∧ (∀ p, localToGlobalRhs V rhs p ≠ rhs p →
        ∃ c, c ≤ V.d ∧ V.free c p = true) := by
  have hnotfree : ∀ x, (∃ c, c ≤ V.d ∧ V.free c x = true) → x ≠ e := by
    intro x ⟨c, hc, hfree⟩ hxe
    rw [hxe, he c hc] at hfree
    exact Bool.false_ne_true hfree
  have hcol : ∀ p, localToGlobalMat V sys p e = sys p e := by
    intro p
    rw [localToGlobalMat, applyM_apply, wsumM_eq_zero, add_zero]
    intro w hw hpe
    exact hnotfree w.2.1 (matWrites_free V w hw).2 hpe.2
  have hrow : ∀ p, localToGlobalMat V sys e p = sys e p := by
    intro p
    rw [localToGlobalMat, applyM_apply, wsumM_eq_zero, add_zero]
    intro w hw hpe
    exact hnotfree w.1 (matWrites_free V w hw).1 hpe.1
  have hrhs : localToGlobalRhs V rhs e = rhs e := by
    rw [localToGlobalRhs, applyV_apply, wsumV_eq_zero, add_zero]
    intro w hw
    exact hnotfree w.1 (rhsWrites_free V w hw)
  refine ⟨hcol, hrow, hrhs, ?_, ?_⟩
  · intro p q hne
    constructor
    · by_contra hfree
      apply hne
      rw [localToGlobalMat, applyM_apply, wsumM_eq_zero, add_zero]
      intro w hw hpq
      exact hfree (hpq.1 ▸ (matWrites_free V w hw).1)
    · by_contra hfree
      apply hne
      rw [localToGlobalMat, applyM_apply, wsumM_eq_zero, add_zero]
      intro w hw hpq
      exact hfree (hpq.2 ▸ (matWrites_free V w hw).2)
  · intro p hne
    by_contra hfree
    apply hne
    rw [localToGlobalRhs, applyV_apply, wsumV_eq_zero, add_zero]
    intro w hw hp
    exact hfree (hp ▸ rhsWrites_free V w hw)

theorem trace_transpose_mul_comm {d : ℕ} (A B : Matrix (Fin d) (Fin d) ℚ) :
    (A.transpose * B).trace = (B.transpose * A).trace := by
  rw [← Matrix.trace_transpose (A.transpose * B), Matrix.transpose_mul,
    Matrix.transpose_transpose]

theorem wsumM_kWrites_diag (d n : ℕ) (weight mu muprex : ℚ)
    (Fi : Matrix (Fin d) (Fin d) ℚ) (pg : ℕ → Fin d → ℚ) (a c c2 : ℕ)
    (ha : a < n) (hc : c < d) (hc2 : c2 < d) :
    wsumM (kWrites d n weight mu muprex Fi pg) (c * n + a) (c2 * n + a)
      = weight * (mu * ((rowMatN c (pg a)).transpose * rowMatN c2 (pg a)).trace
          + muprex * ((Fi * rowMatN c (pg a)) * (Fi * rowMatN c2 (pg a))).trace) := by
  rw [kWrites, wsumM_flatMap, sum_map_range]
  have houter :
      (∑ i2 ∈ Finset.range n,
        wsumM ((List.range d).flatMap fun di2 =>
          (List.range' i2 (n - i2)).flatMap fun j2 =>
            (List.range d).map fun dj2 =>
              (di2 * n + i2, dj2 * n + j2,
                weight * (mu * ((rowMatN di2 (pg i2)).transpose
                    * rowMatN dj2 (pg j2)).trace
                  + muprex * ((Fi * rowMatN di2 (pg i2))
                    * (Fi * rowMatN dj2 (pg j2))).trace)))
          (c * n + a) (c2 * n + a))
      = wsumM ((List.range d).flatMap fun di2 =>
          (List.range' a (n - a)).flatMap fun j2 =>
            (List.range d).map fun dj2 =>
              (di2 * n + a, dj2 * n + j2,
                weight * (mu * ((rowMatN di2 (pg a)).transpose
                    * rowMatN dj2 (pg j2)).trace
                  + muprex * ((Fi * rowMatN di2 (pg a))
                    * (Fi * rowMatN dj2 (pg j2))).trace)))
          (c * n + a) (c2 * n + a) := by
    apply Finset.sum_eq_single_of_mem a (Finset.mem_range.mpr ha)
    intro b hb hne
    apply wsumM_eq_zero
    intro w hw
    simp only [List.mem_flatMap, List.mem_map] at hw
    obtain ⟨di2, _, j2, _, dj2, _, rfl⟩ := hw
    intro hcon
    exact hne (flat_index_inj n di2 c b a (Finset.mem_range.mp hb) ha hcon.1).2
  rw [houter, wsumM_flatMap, sum_map_range]
  have hdi :
      (∑ di2 ∈ Finset.range d,
        wsumM ((List.range' a (n - a)).flatMap fun j2 =>
          (List.range d).map fun dj2 =>
            (di2 * n + a, dj2 * n + j2,
              weight * (mu * ((rowMatN di2 (pg a)).transpose
                  * rowMatN dj2 (pg j2)).trace
                + muprex * ((Fi * rowMatN di2 (pg a))
                  * (Fi * rowMatN dj2 (pg j2))).trace)))
          (c * n + a) (c2 * n + a))
      = wsumM ((List.range' a (n - a)).flatMap fun j2 =>
          (List.range d).map fun dj2 =>
            (c * n + a, dj2 * n + j2,
              weight * (mu * ((rowMatN c (pg a)).transpose
                  * rowMatN dj2 (pg j2)).trace
                + muprex * ((Fi * rowMatN c (pg a))
                  * (Fi * rowMatN dj2 (pg j2))).trace)))
          (c * n + a) (c2 * n + a) := by
    apply Finset.sum_eq_single_of_mem c (Finset.mem_range.mpr hc)
    intro b _ hne
    apply wsumM_eq_zero
    intro w hw
    simp only [List.mem_flatMap, List.mem_map] at hw
    obtain ⟨j2, _, dj2, _, rfl⟩ := hw
    intro hcon
    exact hne (flat_index_inj n b c a a ha ha hcon.1).1
  rw [hdi, wsumM_flatMap, sum_map_range' _ a n (Nat.le_of_lt ha)]
  have hj :
      (∑ j2 ∈ Finset.range n,
        if a ≤ j2 then
          wsumM ((List.range d).map fun dj2 =>
            (c * n + a, dj2 * n + j2,
              weight * (mu * ((rowMatN c (pg a)).transpose
                  * rowMatN dj2 (pg j2)).trace
                + muprex * ((Fi * rowMatN c (pg a))
                  * (Fi * rowMatN dj2 (pg j2))).trace)))
            (c * n + a) (c2 * n + a)
        else 0)
      = if a ≤ a then
          wsumM ((List.range d).map fun dj2 =>
            (c * n + a, dj2 * n + a,
              weight * (mu * ((rowMatN c (pg a)).transpose
                  * rowMatN dj2 (pg a)).trace
                + muprex * ((Fi * rowMatN c (pg a))
                  * (Fi * rowMatN dj2 (pg a))).trace)))
            (c * n + a) (c2 * n + a)
        else 0 := by
    apply Finset.sum_eq_single_of_mem a (Finset.mem_range.mpr ha)
    intro b hb hne
    by_cases hab : a ≤ b
    · rw [if_pos hab]
      apply wsumM_eq_zero
      intro w hw
      simp only [List.mem_map] at hw
      obtain ⟨dj2, _, rfl⟩ := hw
      intro hcon
      exact hne (flat_index_inj n dj2 c2 b a (Finset.mem_range.mp hb) ha
        hcon.2).2
    · rw [if_neg hab]
  rw [hj, if_pos (Nat.le_refl a), wsumM, List.map_map]
  have hmap :
      ((List.range d).map
        ((fun w : ℕ × ℕ × ℚ =>
            if w.1 = c * n + a ∧ w.2.1 = c2 * n + a then w.2.2 else 0) ∘
          fun dj2 =>
            (c * n + a, dj2 * n + a,
              weight * (mu * ((rowMatN c (pg a)).transpose
                  * rowMatN dj2 (pg a)).trace
                + muprex * ((Fi * rowMatN c (pg a))
                  * (Fi * rowMatN dj2 (pg a))).trace)))).sum
      = ∑ dj2 ∈ Finset.range d,
          if c * n + a = c * n + a ∧ dj2 * n + a = c2 * n + a then
            weight * (mu * ((rowMatN c (pg a)).transpose
                * rowMatN dj2 (pg a)).trace
              + muprex * ((Fi * rowMatN c (pg a))
                * (Fi * rowMatN dj2 (pg a))).trace)
          else 0 := by
    rw [sum_map_range]
    rfl
  rw [hmap]
  have hcollapse :
      (∑ dj2 ∈ Finset.range d,
        if c * n + a = c * n + a ∧ dj2 * n + a = c2 * n + a then
          weight * (mu * ((rowMatN c (pg a)).transpose
              * rowMatN dj2 (pg a)).trace
            + muprex * ((Fi * rowMatN c (pg a))
              * (Fi * rowMatN dj2 (pg a))).trace)
        else 0)
      = if c * n + a = c * n + a ∧ c2 * n + a = c2 * n + a then
          weight * (mu * ((rowMatN c (pg a)).transpose
              * rowMatN c2 (pg a)).trace
            + muprex * ((Fi * rowMatN c (pg a))
              * (Fi * rowMatN c2 (pg a))).trace)
        else 0 := by
    apply Finset.sum_eq_single_of_mem c2 (Finset.mem_range.mpr hc2)
    intro b _ hne
    rw [if_neg]
    intro hcon
    exact hne (flat_index_inj n b c2 a a ha ha hcon.2).1
  rw [hcollapse, if_pos ⟨rfl, rfl⟩]

/-- The tangent-stiffness writes of one quadrature point preserve the
same-basis-index block symmetry of `localMatK`: for `i = j` the code writes
the full `(di, dj)` component block (lines 148-166), and the written value
`locKtgVal` is symmetric under exchange of the two spatial components, since
`tr(gradU^T gradV) = tr(gradV^T gradU)` and
`tr((Fi gradU)(Fi gradV)) = tr((Fi gradV)(Fi gradU))`. -/
theorem kWrites_sameBasis_symm (d n : ℕ) (weight mu muprex : ℚ)
    (Fi : Matrix (Fin d) (Fin d) ℚ) (pg : ℕ → Fin d → ℚ) (K0 : ℕ → ℕ → ℚ)
    (hK0 : ∀ c c2 a2, c < d → c2 < d → a2 < n →
      K0 (c * n + a2) (c2 * n + a2) = K0 (c2 * n + a2) (c * n + a2))
    (c c2 a : ℕ) (hc : c < d) (hc2 : c2 < d) (ha : a < n) :
    applyM (kWrites d n weight mu muprex Fi pg) K0 (c * n + a) (c2 * n + a)
      = applyM (kWrites d n weight mu muprex Fi pg) K0 (c2 * n + a)
          (c * n + a) := by
  rw [applyM_apply, applyM_apply, hK0 c c2 a hc hc2 ha,
    wsumM_kWrites_diag d n weight mu muprex Fi pg a c c2 ha hc hc2,
    wsumM_kWrites_diag d n weight mu muprex Fi pg a c2 c ha hc2 hc,
    trace_transpose_mul_comm (rowMatN c (pg a)) (rowMatN c2 (pg a)),
    Matrix.trace_mul_comm (Fi * rowMatN c (pg a)) (Fi * rowMatN c2 (pg a))]

/-- The per-quadrature-point kernel preserves the same-basis-index block
symmetry of `localMatK` (and the zero-initialized buffer satisfies it), so
the local tangent handed to `localToGlobal` always satisfies the hypothesis
of the scatter-symmetry theorem. -/
theorem assembleQP_sameBasis_symm (d n np : ℕ) (M : MaterialTH)
    (mylog : ℚ → ℚ) (Q : QPoint d) (st : LocalTH)
    (hK0 : ∀ c c2 a, c < d → c2 < d → a < n →
      st.localMatK (c * n + a) (c2 * n + a)
        = st.localMatK (c2 * n + a) (c * n + a))
    (c c2 a : ℕ) (hc : c < d) (hc2 : c2 < d) (ha : a < n) :
    (assembleQP d n np M mylog Q st).localMatK (c * n + a) (c2 * n + a)
      = (assembleQP d n np M mylog Q st).localMatK (c2 * n + a)
          (c * n + a) := by
  simp only [assembleQP]
  exact kWrites_sameBasis_symm d n (weightTH Q) M.mu (muprexTH M Q)
    (defGrad_invTH Q) Q.physGrad st.localMatK hK0 c c2 a hc hc2 ha

/-- C5: the converged flag is set exactly when some performed iteration
(counter `m ≥ 1`, within the budget) satisfies
`|updateNorm/initUpdateNorm| < tolerance` or
`|residualNorm/initResidual| < tolerance`, the baselines being the norms
recorded by the first iteration; either criterion alone suffices, and the
loop exits at the first such iteration, freezing the iteration counter
there. -/
theorem newton_converged_iff (A : THAssembler) (s0 : NewtonState) :
    ((solve A s0).converged = true
      ↔ ∃ m, 1 ≤ m ∧ m < s0.maxIterations ∧
          (|(traj A s0 m).updnorm / (firstIteration A s0).updnorm|
              < s0.tolerance ∨
            |(traj A s0 m).residue / (firstIteration A s0).residue|
              < s0.tolerance))
    ∧ ∀ m, 1 ≤ m → m < s0.maxIterations → crit A s0 m →
        (∀ k, 1 ≤ k → k < m → ¬ crit A s0 k) →
        (solve A s0).converged = true ∧ (solve A s0).numIterations = m := by
  constructor
  · exact solve_converged_iff A s0
  · intro m h1 h2 hc hmin
    rw [solve_crit_least A s0 m h1 h2 hc hmin]
    exact ⟨rfl, rfl⟩

/-- C6: the first iteration *replaces* the current displacement and pressure
fields by the fields constructed from the first linear solve (via
`constructSolution`, independently of the previous fields) and records the
baseline residual and update norms; every subsequent iteration applies the
linear-solve result *additively* (via `updateSolution`).  The replacement /
additive semantics of the two assembler calls are modelled from the spec,
the assembler implementation not being part of this source tree. -/
theorem newton_first_replaces_then_updates (A : THAssembler)
    (s : NewtonState) :
    (firstIteration A s).curSolution = A.constructDisp A.firstUpdate
    ∧ (firstIteration A s).curPressure = A.constructPres A.firstUpdate
    ∧ (firstIteration A s).residue = A.firstRhsNorm
    ∧ (firstIteration A s).updnorm = A.vecNorm A.firstUpdate
    ∧ ((nextIteration A s).curSolution
        = fun i => s.curSolution i
            + A.constructDisp (A.update s.curSolution s.curPressure) i)
    ∧ ((nextIteration A s).curPressure
        = fun i => s.curPressure i
            + A.constructPres (A.update s.curSolution s.curPressure) i)
    ∧ solve A s = solveLoop A (firstIteration A s).residue
        (firstIteration A s).updnorm (s.maxIterations - 1) 1
        (firstIteration A s) :=
  ⟨rfl, rfl, rfl, rfl, rfl, rfl, rfl⟩

/-- C8: when no performed iteration meets either convergence criterion,
`solve` terminates normally with `converged() = false`, and the last
computed displacement and pressure fields remain accessible through
`solution(0)` and `solution(1)`. -/
theorem newton_budget_exhausted (A : THAssembler) (s0 : NewtonState)
    (h : ∀ k, 1 ≤ k → k < s0.maxIterations → ¬ crit A s0 k) :
    (solve A s0).converged = false
    ∧ (solve A s0).numIterations = max 1 s0.maxIterations
    ∧ solution (solve A s0) 0
        = (traj A s0 (max 1 s0.maxIterations - 1)).curSolution
    ∧ solution (solve A s0) 1
        = (traj A s0 (max 1 s0.maxIterations - 1)).curPressure := by
  rw [solve_nocrit A s0 h]
  refine ⟨traj_converged A s0 _, rfl, ?_, ?_⟩
  · simp [solution]
  · simp [solution]

/-- C9: with an iteration budget of at most 1, `solve` performs only the
first iteration, can never raise the convergence flag — for every tolerance
and every assembler behaviour — and reports `numIterations() = 1` even
though `nextIteration` was never called. -/
theorem newton_single_iteration_budget (A : THAssembler) (s0 : NewtonState)
    (h : s0.maxIterations ≤ 1) :
    solve A s0 = { firstIteration A s0 with numIterations := 1 }
    ∧ (solve A s0).converged = false
    ∧ (solve A s0).numIterations = 1 := by
  have h0 : s0.maxIterations - 1 = 0 := by omega
  have hsolve : solve A s0
      = { firstIteration A s0 with numIterations := 1 } := by
    rw [solve_eq_loop, h0]
    rfl
  refine ⟨hsolve, ?_, ?_⟩
  · rw [hsolve]
    rfl
  · rw [hsolve]

/-- C10: `solution(i)` returns the displacement field for `i = 0` and the
pressure field for every other index, negative or out of range included; the
member is total and raises no error. -/
theorem newton_solution_selector (s : NewtonState) :
    solution s 0 = s.curSolution
    ∧ ∀ i : ℤ, i ≠ 0 → solution s i = s.curPressure := by
  constructor
  · rw [solution, if_pos rfl]
  · intro i hi
    rw [solution, if_neg hi]

/-! ## Concrete instantiations used by the witnesses -/

/-- An assembler whose pipeline always returns the all-ones update vector
with unit norms. -/
def wAssembler : THAssembler where
  firstUpdate := fun _ => 1
  firstRhsNorm := 1
  update := fun _ _ _ => 1
  rhsNorm := fun _ _ => 1
  vecNorm := fun _ => 1
  constructDisp := fun v => v
  constructPres := fun v => v

/-- A driver state with budget 3 and zero tolerance. -/
def wState : NewtonState where
  curSolution := fun _ => 0
  curPressure := fun _ => 0
  updateVector := fun _ => 0
  numIterations := 0
  maxIterations := 3
  tolerance := 0
  converged := false
  residue := 0
  updnorm := 0

/-- The same state with budget 1. -/
def wState1 : NewtonState := { wState with maxIterations := 1 }

/-- The same state with tolerance 2 (so the criteria fire at once). -/
def wState2 : NewtonState := { wState with tolerance := 2 }

def wZeroMat : ℕ → ℕ → ℚ := fun _ _ => 0

def wZeroVec : ℕ → ℚ := fun _ => 0

/-- All-zero local buffers. -/
def wLocal : LocalTH where
  localRhs_u := fun _ => 0
  localRhs_p := fun _ => 0
  localMatK := fun _ _ => 0
  localMatB := fun _ _ => 0
  localMatC := fun _ _ => 0

/-- A scatter input with two displacement components, one active basis
function per field, all indices free. -/
def wScatter : ScatterIn where
  d := 2
  n := 1
  np := 1
  I := fun c _ => c
  free := fun _ _ => true
  K := fun _ _ => 1
  B := fun _ _ => 1
  C := fun _ _ => 1
  Ru := fun _ => 1
  Rp := fun _ => 1

/-- A scatter input in which the global index 5 is eliminated for every
mapper. -/
def wScatter4 : ScatterIn where
  d := 2
  n := 1
  np := 1
  I := fun c _ => c
  free := fun _ i => i != 5
  K := fun _ _ => 1
  B := fun _ _ => 1
  C := fun _ _ => 1
  Ru := fun _ => 1
  Rp := fun _ => 1

theorem localToGlobal_scatter_symmetric_witness :
    (∀ c c2 a, c < wScatter.d → c2 < wScatter.d → a < wScatter.n →
      wScatter.K (c * wScatter.n + a) (c2 * wScatter.n + a)
        = wScatter.K (c2 * wScatter.n + a) (c * wScatter.n + a))
    ∧ (localToGlobalMat wScatter wZeroMat 0 1 - wZeroMat 0 1
        = localToGlobalMat wScatter wZeroMat 1 0 - wZeroMat 1 0) :=
  ⟨fun _ _ _ _ _ _ => rfl,
    localToGlobal_scatter_symmetric wScatter wZeroMat
      (fun _ _ _ _ _ _ => rfl) 0 1⟩

theorem visitor_displacement_residual_step_witness :
    ((0 : ℕ) < 1 ∧ (0 : ℕ) < 2)
    ∧ (assembleQP 2 1 1 degenerateMat (fun x => x) degenerateQP
          wLocal).localRhs_u (0 * 1 + 0)
      = wLocal.localRhs_u (0 * 1 + 0)
        - weightTH degenerateQP *
            vecAt
              ((degenerateMat.mu •
                  (defGradTH degenerateQP.geoJac degenerateQP.defJac
                    - (minv (defGradTH degenerateQP.geoJac
                        degenerateQP.defJac)).transpose)
                + (degenerateMat.mu * degenerateQP.p) •
                    (minv (defGradTH degenerateQP.geoJac
                      degenerateQP.defJac)).transpose).mulVec
                (degenerateQP.physGrad 0)) 0
        + weightTH degenerateQP * degenerateMat.rho
            * vecAt degenerateQP.force 0 * degenerateMat.tfac
            * degenerateQP.bVals 0 :=
  ⟨⟨by decide, by decide⟩,
    visitor_displacement_residual_step 2 1 1 degenerateMat (fun x => x)
      degenerateQP wLocal 0 0 (by decide) (by decide)⟩

theorem localToGlobal_skips_eliminated_witness :
    (∀ c, c ≤ wScatter4.d → wScatter4.free c 5 = false)
    ∧ ((∀ p, localToGlobalMat wScatter4 wZeroMat p 5 = wZeroMat p 5)
      ∧ (∀ p, localToGlobalMat wScatter4 wZeroMat 5 p = wZeroMat 5 p)
      ∧ localToGlobalRhs wScatter4 wZeroVec 5 = wZeroVec 5
      ∧ (∀ p q, localToGlobalMat wScatter4 wZeroMat p q ≠ wZeroMat p q →
          (∃ c, c ≤ wScatter4.d ∧ wScatter4.free c p = true)
            ∧ ∃ c, c ≤ wScatter4.d ∧ wScatter4.free c q = true)
      ∧ (∀ p, localToGlobalRhs wScatter4 wZeroVec p ≠ wZeroVec p →
          ∃ c, c ≤ wScatter4.d ∧ wScatter4.free c p = true)) :=
  ⟨fun _ _ => rfl,
    localToGlobal_skips_eliminated wScatter4 wZeroMat wZeroVec 5
      (fun _ _ => rfl)⟩

theorem newton_converged_iff_witness :
    ((1 : ℕ) ≤ 1 ∧ 1 < wState2.maxIterations ∧ crit wAssembler wState2 1)
    ∧ ((solve wAssembler wState2).converged = true
        ∧ (solve wAssembler wState2).numIterations = 1) := by
  have hmax : wState2.maxIterations = 3 := rfl
  have hcrit : crit wAssembler wState2 1 := by
    rw [crit, traj_succ, traj_zero]
    left
    have h1 : (nextIteration wAssembler
        (firstIteration wAssembler wState2)).updnorm = 1 := rfl
    have h2 : (firstIteration wAssembler wState2).updnorm = 1 := rfl
    have h3 : wState2.tolerance = 2 := rfl
    rw [h1, h2, h3]
    norm_num
  refine ⟨⟨Nat.le_refl 1, by rw [hmax]; norm_num, hcrit⟩, ?_⟩
  exact (newton_converged_iff wAssembler wState2).2 1 (Nat.le_refl 1)
    (by rw [hmax]; norm_num) hcrit
    (fun k hk1 hk2 => absurd (Nat.lt_of_le_of_lt hk1 hk2) (Nat.lt_irrefl 1))

theorem visitor_pressure_residual_step_witness :
    (0 : ℕ) < 1
    ∧ (assembleQP 2 1 1 degenerateMat (fun x => x) degenerateQP
          wLocal).localRhs_p 0
      = wLocal.localRhs_p 0
        - weightTH degenerateQP * degenerateMat.mu
            * (defGradTH degenerateQP.geoJac degenerateQP.defJac).det
            * degenerateQP.pVals 0
        + (match degenerateMat.lam with
           | some l => degenerateMat.mu * degenerateMat.mu / l
               * weightTH degenerateQP * degenerateQP.p * degenerateQP.pVals 0
           | none => 0) :=
  ⟨by decide,
    (visitor_pressure_residual_step 2 1 1 degenerateMat (fun x => x)
      degenerateQP wLocal).1 0 (by decide)⟩

theorem newton_budget_exhausted_witness :
    (∀ k, 1 ≤ k → k < wState.maxIterations → ¬ crit wAssembler wState k)
    ∧ ((solve wAssembler wState).converged = false
      ∧ (solve wAssembler wState).numIterations = max 1 wState.maxIterations
      ∧ solution (solve wAssembler wState) 0
          = (traj wAssembler wState
              (max 1 wState.maxIterations - 1)).curSolution
      ∧ solution (solve wAssembler wState) 1
          = (traj wAssembler wState
              (max 1 wState.maxIterations - 1)).curPressure) := by
  have htol : wState.tolerance = 0 := rfl
  have hno : ∀ k, 1 ≤ k → k < wState.maxIterations →
      ¬ crit wAssembler wState k := by
    intro k _ _ hc
    rw [crit, htol] at hc
    rcases hc with hc | hc
    · exact absurd hc (abs_nonneg _).not_lt
    · exact absurd hc (abs_nonneg _).not_lt
  exact ⟨hno, newton_budget_exhausted wAssembler wState hno⟩

theorem newton_single_iteration_budget_witness :
    wState1.maxIterations ≤ 1
    ∧ (solve wAssembler wState1
        = { firstIteration wAssembler wState1 with numIterations := 1 }
      ∧ (solve wAssembler wState1).converged = false
      ∧ (solve wAssembler wState1).numIterations = 1) := by
  have h : wState1.maxIterations ≤ 1 := by
    have h1 : wState1.maxIterations = 1 := rfl
    rw [h1]
  exact ⟨h, newton_single_iteration_budget wAssembler wState1 h⟩

theorem newton_solution_selector_witness :
    ((-5 : ℤ) ≠ 0) ∧ solution wState (-5) = wState.curPressure :=
  ⟨by decide, (newton_solution_selector wState).2 (-5) (by decide)⟩

end Gismo
